import Mathlib

/-!
Verification of the trajectory-to-graph processing pipeline of the
indoor-pathfinding backend.

The repository code operates on numpy arrays of 3D points and on SQLite pose
blobs.  We embed the pipeline shallowly:

* points are triples of rationals (`Q3`); every comparison the code makes on a
  Euclidean norm (`np.linalg.norm(...) < t`) is embedded as the equivalent
  comparison of squared distances (`sqDist ... < t^2`), which keeps all control
  flow exactly decidable;
* quantities that the code only ever *stores* (never branches on in a
  rational-expressible way), such as path lengths, are embedded as real numbers
  built with `Real.sqrt`;
* fallible code (a raised exception) is embedded as `Option`/`Except`.

Definitions carry the names of the source functions they embed.
-/

set_option maxRecDepth 20000

/-- A 3D point with rational coordinates (x, y, z). -/
abbrev Q3 : Type := ℚ × ℚ × ℚ

/-- Squared Euclidean distance between two 3D points. -/
def sqDist (a b : Q3) : ℚ :=
  (a.1 - b.1) ^ 2 + (a.2.1 - b.2.1) ^ 2 + (a.2.2 - b.2.2) ^ 2

/-- Squared Euclidean distance of the XY (horizontal) projections. -/
def sqDistXY (a b : Q3) : ℚ :=
  (a.1 - b.1) ^ 2 + (a.2.1 - b.2.1) ^ 2

/-- Euclidean distance between two rational 3D points, as a real number
(the code computes `np.linalg.norm(a - b)`). -/
noncomputable def dist3 (a b : Q3) : ℝ :=
  Real.sqrt (sqDist a b)

theorem sqDist_nonneg (a b : Q3) : 0 ≤ sqDist a b := by
  unfold sqDist; positivity

theorem sqDist_self (a : Q3) : sqDist a a = 0 := by
  simp [sqDist]

theorem sqDist_comm (a b : Q3) : sqDist a b = sqDist b a := by
  unfold sqDist; ring

theorem dist3_nonneg (a b : Q3) : 0 ≤ dist3 a b :=
  Real.sqrt_nonneg _

theorem dist3_self (a : Q3) : dist3 a a = 0 := by
  simp [dist3, sqDist_self]

/-- Evaluation of `dist3` when the squared distance is a perfect square. -/
theorem dist3_eval {a b : Q3} {r : ℚ} (h : sqDist a b = r ^ 2) (hr : 0 ≤ r) :
    dist3 a b = (r : ℝ) := by
  unfold dist3
  rw [h]
  push_cast
  exact Real.sqrt_sq (by exact_mod_cast hr)

/-- The canonical embedding of a rational 3D point into Euclidean 3-space. -/
noncomputable def toE (a : Q3) : EuclideanSpace ℝ (Fin 3) :=
  ![(a.1 : ℝ), (a.2.1 : ℝ), (a.2.2 : ℝ)]

theorem dist3_eq_dist (a b : Q3) : dist3 a b = dist (toE a) (toE b) := by
  rw [EuclideanSpace.dist_eq]
  unfold dist3 sqDist toE
  congr 1
  rw [Fin.sum_univ_three]
  simp only [Matrix.cons_val_zero, Matrix.cons_val_one, Matrix.head_cons,
    Matrix.cons_val_two, Matrix.tail_cons]
  rw [Real.dist_eq, Real.dist_eq, Real.dist_eq, sq_abs, sq_abs, sq_abs]
  push_cast
  ring

/-- Triangle inequality for `dist3`. -/
theorem dist3_triangle (a b c : Q3) : dist3 a c ≤ dist3 a b + dist3 b c := by
  rw [dist3_eq_dist, dist3_eq_dist, dist3_eq_dist]
  exact dist_triangle _ _ _

/-! ### PoseReader (`services/extraction.py`)

A pose blob is 48 bytes holding 12 consecutive little-endian IEEE-754 binary32
values, read as a row-major 3×4 matrix; the translation is entries 3, 7, 11.
We embed the binary32 decoding exactly: a word either denotes a finite rational
value or is non-finite (NaN or an infinity); `numpy.isfinite` is the
`FVal.isFinite` test. -/

/-- The value denoted by an IEEE-754 binary32 bit pattern: either a finite
rational number or a non-finite value (NaN / ±infinity). -/
inductive FVal where
  | finite (q : ℚ) : FVal
  | nonFinite : FVal
deriving DecidableEq

/-- Whether a decoded float is finite (`np.isfinite`). -/
def FVal.isFinite : FVal → Bool
  | .finite _ => true
  | .nonFinite => false

/-- The finite value of a decoded float (0 for non-finite ones; only ever used
after an `isFinite` check, mirroring the source). -/
def FVal.val : FVal → ℚ
  | .finite q => q
  | .nonFinite => 0

/-- Decode a 32-bit word as an IEEE-754 binary32 value. -/
def decodeF32Word (w : ℕ) : FVal :=
  let sign : ℕ := w / 2 ^ 31 % 2
  let expo : ℕ := w / 2 ^ 23 % 256
  let mant : ℕ := w % 2 ^ 23
  if expo = 255 then FVal.nonFinite
  else
    let mag : ℚ :=
      if expo = 0 then (mant : ℚ) * (2 : ℚ) ^ (1 - 127 - 23 : ℤ)
      else ((2 ^ 23 + mant : ℕ) : ℚ) * (2 : ℚ) ^ ((expo : ℤ) - 127 - 23)
    if sign = 1 then FVal.finite (-mag) else FVal.finite mag

/-- Assemble a little-endian 32-bit word from four bytes. -/
def leWord (b0 b1 b2 b3 : ℕ) : ℕ :=
  b0 + 256 * b1 + 65536 * b2 + 16777216 * b3

/-- Decode a byte string as consecutive little-endian binary32 values
(`struct.unpack` with format `12f` on a 48-byte blob). -/
def unpackF32s : List ℕ → List FVal
  | b0 :: b1 :: b2 :: b3 :: rest => decodeF32Word (leWord b0 b1 b2 b3) :: unpackF32s rest
  | _ => []

/-- `extract_pose`: decode a 48-byte pose blob into the 12 matrix entries.
Returns `none` for an absent, empty, or wrongly sized blob.  (At exactly 48
bytes `struct.unpack` cannot fail: every bit pattern decodes.) -/
def extract_pose (blob : Option (List ℕ)) : Option (List FVal) :=
  match blob with
  | none => none
  | some bs =>
    if bs.length = 0 then none
    else if bs.length ≠ 48 then none
    else some (unpackF32s bs)

/-- `get_position_from_matrix`: the translation column of the row-major 3×4
matrix, i.e. entries 3, 7 and 11 of the 12 decoded floats. -/
def get_position_from_matrix (m : List FVal) : FVal × FVal × FVal :=
  (m.getD 3 FVal.nonFinite, m.getD 7 FVal.nonFinite, m.getD 11 FVal.nonFinite)

/-- `is_valid_position`: all three translation components are finite and the
translation is not within `1e-6` of the origin in every axis
(`np.allclose(position, [0,0,0], atol=1e-6)` with `b = 0`). -/
def is_valid_position (p : FVal × FVal × FVal) : Bool :=
  p.1.isFinite && p.2.1.isFinite && p.2.2.isFinite &&
    !(|p.1.val| ≤ 1 / 1000000 && |p.2.1.val| ≤ 1 / 1000000 && |p.2.2.val| ≤ 1 / 1000000)

/-- The per-record keep decision of `extract_trajectory_from_db`: decode the
blob, take the translation, keep it when valid. -/
def keepPose (blob : Option (List ℕ)) : Option Q3 :=
  match extract_pose blob with
  | none => none
  | some m =>
    let p := get_position_from_matrix m
    if is_valid_position p then some (p.1.val, p.2.1.val, p.2.2.val) else none

/-- `extract_trajectory_from_db`: iterate the records in ascending id, keep the
valid positions, and fail (`ValueError`, the EmptyTrajectory error) when none
survive. -/
def extract_trajectory_from_db (rows : List (ℕ × Option (List ℕ))) :
    Except Unit (List (ℕ × Q3)) :=
  let kept := rows.filterMap (fun r => (keepPose r.2).map (fun p => (r.1, p)))
  if kept.isEmpty then Except.error () else Except.ok kept

/-- The claim's keep predicate, following the spec's words: blob present, of
length 48, unpacking as 12 floats, **no component** (of the 12) non-finite, and
the translation not within 1e-6 of the origin in every axis. -/
def claimKeepPose (blob : Option (List ℕ)) : Bool :=
  match blob with
  | none => false
  | some bs =>
    bs.length = 48 &&
      (unpackF32s bs).all FVal.isFinite &&
      !(let p := get_position_from_matrix (unpackF32s bs);
        |p.1.val| ≤ 1 / 1000000 && |p.2.1.val| ≤ 1 / 1000000 && |p.2.2.val| ≤ 1 / 1000000)

/-- The keep predicate the code actually implements: blob present, of length
48, the three translation components finite, and the translation not within
1e-6 of the origin in every axis. -/
def amendedKeepPose (blob : Option (List ℕ)) : Bool :=
  match blob with
  | none => false
  | some bs =>
    bs.length = 48 && is_valid_position (get_position_from_matrix (unpackF32s bs))

/-- Little-endian bytes of the binary32 value 1.0 (0x3F800000). -/
def oneF32Bytes : List ℕ := [0, 0, 128, 63]

/-- Little-endian bytes of a binary32 NaN (0x7FC00000). -/
def nanF32Bytes : List ℕ := [0, 0, 192, 127]

/-- Little-endian bytes of the binary32 value 0.0. -/
def zeroF32Bytes : List ℕ := [0, 0, 0, 0]

/-- A 48-byte pose blob whose entry 0 is NaN, whose rotation entries are
otherwise 0.0, and whose translation entries (3, 7, 11) are 1.0. -/
def nanRotationBlob : List ℕ :=
  nanF32Bytes ++ zeroF32Bytes ++ zeroF32Bytes ++ oneF32Bytes ++
  zeroF32Bytes ++ zeroF32Bytes ++ zeroF32Bytes ++ oneF32Bytes ++
  zeroF32Bytes ++ zeroF32Bytes ++ zeroF32Bytes ++ oneF32Bytes

unseal Rat.add Rat.mul Rat.sub Rat.inv Nat.gcd in
/-- C3, counterexample: the claim says a record whose blob contains a
non-finite component is dropped, but the code checks finiteness only of the
three translation components: a blob with a NaN rotation entry and finite
non-origin translation is kept. -/
theorem extract_pose_keeps_nan_rotation :
    (keepPose (some nanRotationBlob)).isSome = true ∧
      claimKeepPose (some nanRotationBlob) = false := by
  constructor <;> decide

/-- C3, amended: the pose reader keeps a record iff its blob is present, is
exactly 48 bytes long, the three decoded translation components are finite, and
the translation is not within 1e-6 of the origin in every axis; and it fails
with the EmptyTrajectory error exactly when zero records survive this filter. -/
theorem extract_trajectory_keep_iff :
    (∀ blob : Option (List ℕ), (keepPose blob).isSome = true ↔ amendedKeepPose blob = true) ∧
      (∀ rows : List (ℕ × Option (List ℕ)),
        extract_trajectory_from_db rows = Except.error () ↔
          ∀ r ∈ rows, (keepPose r.2).isNone = true) := by
  constructor
  · intro blob
    match blob with
    | none => simp [keepPose, extract_pose, amendedKeepPose]
    | some bs =>
      by_cases h0 : bs.length = 0
      · simp [keepPose, extract_pose, h0, amendedKeepPose]
      · by_cases h48 : bs.length = 48
        · simp only [keepPose, extract_pose, h0, h48]
          by_cases hv : is_valid_position (get_position_from_matrix (unpackF32s bs)) = true
          · simp [hv, amendedKeepPose, h48]
          · simp [hv, amendedKeepPose, h48]
        · simp [keepPose, extract_pose, h0, h48, amendedKeepPose]
  · intro rows
    unfold extract_trajectory_from_db
    have hiff :
        (rows.filterMap (fun r => (keepPose r.2).map (fun p => (r.1, p)))).isEmpty = true ↔
          ∀ r ∈ rows, (keepPose r.2).isNone = true := by
      rw [List.isEmpty_iff, List.filterMap_eq_nil_iff]
      constructor
      · intro h r hr
        have hr2 := h r hr
        cases hk : keepPose r.2 with
        | none => simp
        | some p => rw [hk] at hr2; simp at hr2
      · intro h r hr
        have hr2 := h r hr
        cases hk : keepPose r.2 with
        | none => simp
        | some p => rw [hk] at hr2; simp at hr2
    by_cases h :
        (rows.filterMap (fun r => (keepPose r.2).map (fun p => (r.1, p)))).isEmpty = true
    · rw [if_pos h]
      exact iff_of_true rfl (hiff.mp h)
    · rw [if_neg h]
      constructor
      · intro hcontra
        exact absurd hcontra (by simp)
      · intro hall
        exact absurd (hiff.mpr hall) h

unseal Rat.add Rat.mul Rat.sub Rat.inv Nat.gcd in
/-- Witness for C3's amended theorem: a concrete blob (finite non-origin
translation) that the reader keeps. -/
theorem extract_trajectory_keep_iff_witness :
    (keepPose (some nanRotationBlob)).isSome = true :=
  (extract_trajectory_keep_iff.1 (some nanRotationBlob)).mpr (by decide)

/-! ### PathFlattener (`services/smoothing.py`, `services/path_flattening.py`)

`snap_to_lines` splits at gaps, runs RDP on each segment and resamples the
retained vertices; `np.concatenate` of an empty segment list raises, which we
embed as `none`. -/

/-- The default point used for (never out-of-range) list indexing. -/
def d0 : Q3 := (0, 0, 0)

/-- Vector difference of two points. -/
def vsub (a b : Q3) : Q3 := (a.1 - b.1, a.2.1 - b.2.1, a.2.2 - b.2.2)

/-- Dot product. -/
def vdot (a b : Q3) : ℚ := a.1 * b.1 + a.2.1 * b.2.1 + a.2.2 * b.2.2

/-- Squared Euclidean norm. -/
def normSq (a : Q3) : ℚ := vdot a a

/-- Squared perpendicular distance from `p` to the line through `a` with
direction `d` (`_point_to_line_distance` squared):
`|v|^2 - (v . u)^2` for `v = p - a` and unit `u = d / |d|`. -/
def perpSq (p a d : Q3) : ℚ :=
  normSq (vsub p a) - (vdot (vsub p a) d) ^ 2 / normSq d

/-- Indices `i + 1` of the points that follow a gap: consecutive-point distance
above the gap threshold (`np.where(dists > gap_threshold)[0] + 1`). -/
def gapIdxs (positions : List Q3) (gapSq : ℚ) : List ℕ :=
  ((List.range (positions.length - 1)).filter
    (fun i => gapSq < sqDist (positions.getD i d0) (positions.getD (i + 1) d0))).map (· + 1)

/-- The splitting loop of `split_at_gaps`: emit `positions[prev:idx]` for each
split index when it has at least 2 points, then the tail when it has at least
2 points. -/
def gapSegments (positions : List Q3) : List ℕ → ℕ → List (List Q3)
  | [], prev =>
    if 2 ≤ positions.length - prev then [positions.drop prev] else []
  | idx :: rest, prev =>
    if 2 ≤ idx - prev then
      ((positions.drop prev).take (idx - prev)) :: gapSegments positions rest idx
    else gapSegments positions rest idx

/-- `split_at_gaps`: split the polyline where consecutive points are farther
apart than the gap threshold; with no gap (or fewer than 2 points) the input is
returned whole. -/
def split_at_gaps (positions : List Q3) (gapSq : ℚ) : List (List Q3) :=
  if positions.length < 2 then [positions]
  else
    let idxs := gapIdxs positions gapSq
    if idxs = [] then [positions] else gapSegments positions idxs 0

/-- The farthest-interior-point scan of `_rdp_recursive`: the first interior
index attaining the maximal squared perpendicular distance to the chord,
starting from `(0, 0)` and updating on strict increase, as in the source. -/
def rdpFarthest (points : List Q3) : ℕ × ℚ :=
  let start := points.getD 0 d0
  let lineVec := vsub (points.getD (points.length - 1) d0) start
  (List.range' 1 (points.length - 2)).foldl
    (fun acc i =>
      let d := perpSq (points.getD i d0) start lineVec
      if acc.2 < d then (i, d) else acc) (0, 0)

/-- `_rdp_recursive`: the indices kept by Ramer-Douglas-Peucker.  All norm
comparisons of the source are embedded as the equivalent squared comparisons.
The source recurses on the farthest interior point; the defensive
`[0, n-1]` branch for an out-of-range split index is unreachable whenever
`epsSq` is nonnegative (as in every call site). -/
def rdpIndices (points : List Q3) (epsSq : ℚ) : List ℕ :=
  if points.length < 3 then List.range points.length
  else
    let start := points.getD 0 d0
    let stop := points.getD (points.length - 1) d0
    if normSq (vsub stop start) < 1 / 10 ^ 20 then [0, points.length - 1]
    else if epsSq < (rdpFarthest points).2 then
      if hb : 1 ≤ (rdpFarthest points).1 ∧ (rdpFarthest points).1 + 2 ≤ points.length then
        let lhs := rdpIndices (points.take ((rdpFarthest points).1 + 1)) epsSq
        let rhs := rdpIndices (points.drop (rdpFarthest points).1) epsSq
        lhs.dropLast ++ rhs.map (· + (rdpFarthest points).1)
      else [0, points.length - 1]
    else [0, points.length - 1]
termination_by points.length
decreasing_by
  · simp only [List.length_take]
    omega
  · simp only [List.length_drop]
    omega

/-- `simplify_path_rdp`: keep only the RDP indices. -/
def simplify_path_rdp (positions : List Q3) (epsSq : ℚ) : List Q3 :=
  if positions.length < 3 then positions
  else (rdpIndices positions epsSq).map (fun i => positions.getD i d0)

/-- Linear interpolation `a + t * (b - a)`. -/
def lerp (a b : Q3) (t : ℚ) : Q3 :=
  (a.1 + t * (b.1 - a.1), a.2.1 + t * (b.2.1 - a.2.1), a.2.2 + t * (b.2.2 - a.2.2))

/-- `int(np.ceil(seg_length / spacing))` for `seg_length = sqrt segSq`:
the least natural `n` with `n * spacing >= seg_length`, i.e. with
`segSq <= n^2 * spacing^2`. -/
def ceilLenDiv (segSq sp2 : ℚ) : ℕ :=
  let bound := max 1 (Int.toNat ⌈segSq / sp2⌉)
  ((List.range (bound + 1)).find? (fun (n : ℕ) => segSq ≤ (n : ℚ) ^ 2 * sp2)).getD bound

/-- Interpolated points strictly after `start` up to `stop` at the given
spacing (`j / n_points` for `j = 1 .. n_points`). -/
def interpPoints (start stop : Q3) (sp2 : ℚ) : List Q3 :=
  let n := max 1 (ceilLenDiv (sqDist start stop) sp2)
  (List.range' 1 n).map (fun j => lerp start stop ((j : ℚ) / (n : ℚ)))

/-- `_interpolate_between_vertices`: the first vertex, then for each
consecutive vertex pair of nonnegligible length the interpolated points
(endpoint inclusive). -/
def interpolate_between_vertices (vertices : List Q3) (sp2 : ℚ) : List Q3 :=
  (vertices.take 1) ++
    ((vertices.zip vertices.tail).map (fun ab =>
      if sqDist ab.1 ab.2 < 1 / 10 ^ 20 then [] else interpPoints ab.1 ab.2 sp2)).flatten

/-- `snap_to_lines` with the pipeline's parameters `epsilon = 0.5`,
`point_spacing = 0.5`, `gap_threshold = 5.0`: split at gaps, simplify each
segment with RDP, resample; `np.concatenate` of an empty list of segments
raises, embedded as `none`. -/
def snap_to_lines (positions : List Q3) : Option (List Q3) :=
  if positions.length < 3 then some positions
  else
    let segments := split_at_gaps positions 25
    let resultSegs := segments.map (fun seg =>
      if seg.length < 2 then seg
      else
        let vertices := simplify_path_rdp seg (1 / 4)
        if vertices.length < 2 then vertices
        else interpolate_between_vertices vertices (1 / 4))
    if resultSegs = [] then none else some resultSegs.flatten

theorem gapSegments_min_length (positions : List Q3) :
    ∀ (idxs : List ℕ) (prev : ℕ), (∀ i ∈ idxs, i ≤ positions.length) →
      ∀ s ∈ gapSegments positions idxs prev, 2 ≤ s.length := by
  intro idxs
  induction idxs with
  | nil =>
    intro prev hin s hs
    unfold gapSegments at hs
    by_cases h : 2 ≤ positions.length - prev
    · rw [if_pos h] at hs
      simp only [List.mem_singleton] at hs
      subst hs
      simpa using h
    · rw [if_neg h] at hs
      simp at hs
  | cons idx rest ih =>
    intro prev hin s hs
    unfold gapSegments at hs
    have hidx : idx ≤ positions.length := hin idx (by simp)
    have hin2 : ∀ i ∈ rest, i ≤ positions.length := fun i hi => hin i (by simp [hi])
    by_cases h : 2 ≤ idx - prev
    · rw [if_pos h] at hs
      rcases List.mem_cons.mp hs with h1 | h2
      · subst h1
        simp only [List.length_take, List.length_drop]
        omega
      · exact ih idx hin2 s h2
    · rw [if_neg h] at hs
      exact ih idx hin2 s hs

theorem gapIdxs_le (positions : List Q3) (gapSq : ℚ) :
    ∀ j ∈ gapIdxs positions gapSq, j ≤ positions.length := by
  intro j hj
  unfold gapIdxs at hj
  rcases List.mem_map.mp hj with ⟨i, hi, rfl⟩
  have := List.mem_range.mp (List.mem_filter.mp hi).1
  omega

unseal Rat.add Rat.mul Rat.sub Rat.inv Nat.gcd in
/-- C10: the flattener is not total.  Whenever gap splitting fires, every
emitted gap-separated run has at least 2 points (runs with fewer are silently
discarded); and on the concrete input `[(0,0,0), (6,0,0), (12,0,0)]` — three
points with every consecutive pair farther apart than the 5 m gap threshold —
all runs are discarded and `snap_to_lines` raises (concatenation of zero
segments, embedded as `none`) instead of returning a polyline. -/
theorem snap_to_lines_not_total :
    (∀ (positions : List Q3) (gapSq : ℚ), gapIdxs positions gapSq ≠ [] →
      ∀ s ∈ split_at_gaps positions gapSq, 2 ≤ s.length) ∧
      snap_to_lines [(0, 0, 0), (6, 0, 0), (12, 0, 0)] = none := by
  constructor
  · intro positions gapSq hne s hs
    unfold split_at_gaps at hs
    by_cases h2 : positions.length < 2
    · exfalso
      apply hne
      unfold gapIdxs
      have : positions.length - 1 = 0 := by omega
      simp [this]
    · rw [if_neg h2] at hs
      simp only [hne, if_neg, if_false] at hs
      exact gapSegments_min_length positions (gapIdxs positions gapSq) 0
        (gapIdxs_le positions gapSq) s hs
  · decide

unseal Rat.add Rat.mul Rat.sub Rat.inv Nat.gcd in
/-- Witness for C10: a concrete input with gaps on which the run-length
property of `split_at_gaps` is exercised. -/
theorem snap_to_lines_not_total_witness :
    gapIdxs [(0, 0, 0), (1, 0, 0), (10, 0, 0), (20, 0, 0), (21, 0, 0)] 25 ≠ [] ∧
      ∀ s ∈ split_at_gaps [(0, 0, 0), (1, 0, 0), (10, 0, 0), (20, 0, 0), (21, 0, 0)] 25,
        2 ≤ s.length :=
  ⟨by decide, snap_to_lines_not_total.1 _ 25 (by decide)⟩

/-! ### Deduplicator (`services/deduplication.py`)

Stage 1 (`merge_overlapping_segments`) walks the sequence and skips revisited
stretches; stage 2 (`deduplicate_path`) keeps a point exactly when it is
farther than the threshold from every previously kept point (the KD-tree pass
in ascending index order: the first unvisited point claims every neighbour
within the threshold).  The stage-1 loop is embedded with an explicit iteration
budget (`fuel`); `positions.length` iterations always suffice because the scan
index strictly increases (proved below). -/

/-- Index of the first element satisfying the predicate. -/
def findIdxFrom (p : Q3 → Bool) : List Q3 → Option ℕ
  | [] => none
  | x :: xs => if p x then some 0 else (findIdxFrom p xs).map (· + 1)

theorem findIdxFrom_some {p : Q3 → Bool} :
    ∀ {l : List Q3} {n : ℕ}, findIdxFrom p l = some n →
      ∃ x, l.get? n = some x ∧ p x = true := by
  intro l
  induction l with
  | nil => intro n h; simp [findIdxFrom] at h
  | cons x xs ih =>
    intro n h
    unfold findIdxFrom at h
    by_cases hp : p x
    · rw [if_pos hp] at h
      obtain rfl : 0 = n := by simpa using h
      exact ⟨x, rfl, hp⟩
    · rw [if_neg hp] at h
      rcases Option.map_eq_some'.mp h with ⟨m, hm, rfl⟩
      rcases ih hm with ⟨y, hy, hpy⟩
      exact ⟨y, by simpa using hy, hpy⟩

/-- `_find_revisit_point`: the first point of the already-built path (its last
point excluded) within the threshold of the current point. -/
def find_revisit_point (path : List Q3) (point : Q3) (th2 : ℚ) : Option ℕ :=
  findIdxFrom (fun p => sqDist p point < th2) path.dropLast

/-- `_find_divergence_point`: the first forward point farther than the
threshold from every point of the suspected overlap region. -/
def find_divergence_point (forward backward : List Q3) (th2 : ℚ) : Option ℕ :=
  findIdxFrom (fun pt => backward.all (fun b => th2 < sqDist b pt)) forward

/-- The scan loop of `merge_overlapping_segments`, with an explicit iteration
budget; each iteration either appends the current point and advances by one, or
jumps past a revisited stretch by the divergence index. -/
def mergeAux (pos : List Q3) (th2 : ℚ) : ℕ → List Q3 → ℕ → List Q3
  | 0, acc, _ => acc
  | fuel + 1, acc, i =>
    if i < pos.length then
      let current := pos.getD i d0
      match find_revisit_point acc current th2 with
      | some r =>
        if r + 2 < acc.length then
          match find_divergence_point (pos.drop i) (acc.drop r) th2 with
          | some dv => mergeAux pos th2 fuel acc (i + dv)
          | none => mergeAux pos th2 fuel (acc ++ [current]) (i + 1)
        else mergeAux pos th2 fuel (acc ++ [current]) (i + 1)
      | none => mergeAux pos th2 fuel (acc ++ [current]) (i + 1)
    else acc

/-- `merge_overlapping_segments`: collapse back-and-forth re-traversals. -/
def merge_overlapping_segments (positions : List Q3) (th2 : ℚ) : List Q3 :=
  if positions.length < 3 then positions
  else mergeAux positions th2 positions.length (positions.take 1) 1

/-- The keep scan of `deduplicate_path`: a point is kept exactly when it is
farther than the threshold from every previously kept point. -/
def dedupScan (th2 : ℚ) : List Q3 → List Q3 → List Q3
  | _, [] => []
  | kept, p :: rest =>
    if kept.any (fun q => sqDist q p ≤ th2) then dedupScan th2 kept rest
    else p :: dedupScan th2 (kept ++ [p]) rest

/-- `deduplicate_path`: KD-tree spatial dedup; returns the input unchanged when
it has fewer than 2 points or when fewer than 2 points would survive. -/
def deduplicate_path (positions : List Q3) (th2 : ℚ) : List Q3 :=
  if positions.length < 2 then positions
  else
    let u := dedupScan th2 [] positions
    if u.length < 2 then positions else u

/-- The two-stage per-floor deduplicator exactly as `process_path_async` runs
it: back-and-forth merging with `overlap_threshold = 1.0` followed by spatial
dedup with `distance_threshold = 0.5`. -/
def dedupPipeline (positions : List Q3) : List Q3 :=
  deduplicate_path (merge_overlapping_segments positions 1) (1 / 4)

theorem divergence_index_pos (acc : List Q3) (current : Q3) (rest : List Q3)
    (th2 : ℚ) (r d : ℕ)
    (hrev : find_revisit_point acc current th2 = some r)
    (hdiv : find_divergence_point (current :: rest) (acc.drop r) th2 = some d) :
    1 ≤ d := by
  rcases Nat.eq_zero_or_pos d with rfl | hd
  · exfalso
    unfold find_divergence_point findIdxFrom at hdiv
    by_cases hp : ((acc.drop r).all fun b => decide (th2 < sqDist b current)) = true
    · rcases findIdxFrom_some hrev with ⟨x, hx, hxlt⟩
      have hxacc : acc.get? r = some x := by
        rw [List.dropLast_eq_take] at hx
        have hrlt : r < (acc.take (acc.length - 1)).length :=
          List.get?_eq_some.mp hx |>.1
        rw [List.length_take] at hrlt
        rw [← hx, List.get?_take]
        omega
      have hmem : x ∈ acc.drop r := by
        have : (acc.drop r).get? 0 = some x := by
          rw [List.get?_drop]
          simpa using hxacc
        exact List.get?_mem this
      have := List.all_eq_true.mp hp x hmem
      simp only [decide_eq_true_eq] at this hxlt
      linarith
    · rw [if_neg hp] at hdiv
      rcases Option.map_eq_some'.mp hdiv with ⟨m, _, hm⟩
      omega
  · exact hd

theorem mergeAux_fuel_invariant (pos : List Q3) (th2 : ℚ) :
    ∀ (fuel1 fuel2 : ℕ) (acc : List Q3) (i : ℕ),
      pos.length - i ≤ fuel1 → pos.length - i ≤ fuel2 →
      mergeAux pos th2 fuel1 acc i = mergeAux pos th2 fuel2 acc i := by
  intro fuel1
  induction fuel1 with
  | zero =>
    intro fuel2 acc i h1 h2
    have hi : ¬ i < pos.length := by omega
    cases fuel2 with
    | zero => rfl
    | succ f2 => simp only [mergeAux, if_neg hi]
  | succ f1 ih =>
    intro fuel2 acc i h1 h2
    by_cases hi : i < pos.length
    · have hf2 : ∃ f2, fuel2 = f2 + 1 := by
        cases fuel2 with
        | zero => omega
        | succ f2 => exact ⟨f2, rfl⟩
      rcases hf2 with ⟨f2, rfl⟩
      simp only [mergeAux, if_pos hi]
      cases hrev : find_revisit_point acc (pos.getD i d0) th2 with
      | none => exact ih f2 (acc ++ [pos.getD i d0]) (i + 1) (by omega) (by omega)
      | some r =>
        dsimp only
        by_cases hc : r + 2 < acc.length
        · rw [if_pos hc, if_pos hc]
          cases hdiv : find_divergence_point (pos.drop i) (acc.drop r) th2 with
          | none => exact ih f2 (acc ++ [pos.getD i d0]) (i + 1) (by omega) (by omega)
          | some dv =>
            have hdrop : pos.drop i = pos.getD i d0 :: pos.drop (i + 1) := by
              rw [List.getD_eq_getElem?_getD, List.getElem?_eq_getElem hi]
              exact List.drop_eq_getElem_cons hi
            have hdv : 1 ≤ dv :=
              divergence_index_pos acc (pos.getD i d0) (pos.drop (i + 1)) th2 r dv hrev
                (by rw [← hdrop]; exact hdiv)
            exact ih f2 acc (i + dv) (by omega) (by omega)
        · rw [if_neg hc, if_neg hc]
          exact ih f2 (acc ++ [pos.getD i d0]) (i + 1) (by omega) (by omega)
    · cases fuel2 with
      | zero => simp only [mergeAux, if_neg hi]
      | succ f2 => simp only [mergeAux, if_neg hi]

/-- C9: whenever a revisit is detected at the current point, any divergence
index returned is at least 1 (the current point itself lies within the overlap
threshold of the revisit point, so it cannot be farther than the threshold
from every point of the overlap region); consequently the scan index strictly
increases on every iteration of `merge_overlapping_segments`, and the result
of the scan loop is independent of the iteration budget once the budget covers
the remaining points — `positions.length` iterations always suffice. -/
theorem merge_overlapping_terminates :
    (∀ (acc : List Q3) (current : Q3) (rest : List Q3) (th2 : ℚ) (r d : ℕ),
        find_revisit_point acc current th2 = some r →
        find_divergence_point (current :: rest) (acc.drop r) th2 = some d →
        1 ≤ d) ∧
      ∀ (pos : List Q3) (th2 : ℚ) (fuel1 fuel2 : ℕ) (acc : List Q3) (i : ℕ),
        pos.length - i ≤ fuel1 → pos.length - i ≤ fuel2 →
        mergeAux pos th2 fuel1 acc i = mergeAux pos th2 fuel2 acc i :=
  ⟨divergence_index_pos, fun pos th2 => mergeAux_fuel_invariant pos th2⟩

unseal Rat.add Rat.mul Rat.sub Rat.inv Nat.gcd in
/-- Witness for C9 at a concrete revisit: the divergence index returned is 1. -/
theorem merge_overlapping_terminates_witness :
    find_revisit_point [(0, 0, 0), (5, 0, 0), (9, 0, 0)] (1/2, 0, 0) 1 = some 0 ∧
      find_divergence_point ((1/2, 0, 0) :: [(20, 0, 0)])
        (([(0, 0, 0), (5, 0, 0), (9, 0, 0)] : List Q3).drop 0) 1 = some 1 ∧
      1 ≤ 1 :=
  ⟨by decide, by decide,
    merge_overlapping_terminates.1 [(0, 0, 0), (5, 0, 0), (9, 0, 0)] (1/2, 0, 0)
      [(20, 0, 0)] 1 0 1 (by decide) (by decide)⟩

theorem drop_getD_cons {pos : List Q3} {i : ℕ} (hi : i < pos.length) :
    pos.drop i = pos.getD i d0 :: pos.drop (i + 1) := by
  rw [List.getD_eq_getElem?_getD, List.getElem?_eq_getElem hi]
  exact List.drop_eq_getElem_cons hi

theorem dedupScan_sublist (th2 : ℚ) :
    ∀ (rest kept : List Q3), List.Sublist (dedupScan th2 kept rest) rest := by
  intro rest
  induction rest with
  | nil => intro kept; simp [dedupScan]
  | cons p rest ih =>
    intro kept
    unfold dedupScan
    split
    · exact (ih kept).cons p
    · exact (ih (kept ++ [p])).cons₂ p

theorem deduplicate_path_sublist (positions : List Q3) (th2 : ℚ) :
    List.Sublist (deduplicate_path positions th2) positions := by
  unfold deduplicate_path
  by_cases h1 : positions.length < 2
  · rw [if_pos h1]
  · rw [if_neg h1]
    dsimp only
    by_cases h2 : (dedupScan th2 [] positions).length < 2
    · rw [if_pos h2]
    · rw [if_neg h2]
      exact dedupScan_sublist th2 positions []

theorem mergeAux_sublist (pos : List Q3) (th2 : ℚ) :
    ∀ (fuel : ℕ) (acc : List Q3) (i : ℕ),
      ∃ s, mergeAux pos th2 fuel acc i = acc ++ s ∧ List.Sublist s (pos.drop i) := by
  intro fuel
  induction fuel with
  | zero =>
    intro acc i
    exact ⟨[], by simp [mergeAux], List.nil_sublist _⟩
  | succ f ih =>
    intro acc i
    by_cases hi : i < pos.length
    · simp only [mergeAux, if_pos hi]
      cases hrev : find_revisit_point acc (pos.getD i d0) th2 with
      | none =>
        rcases ih (acc ++ [pos.getD i d0]) (i + 1) with ⟨s, hs, hsub⟩
        refine ⟨pos.getD i d0 :: s, by simpa using hs, ?_⟩
        rw [drop_getD_cons hi]
        exact hsub.cons₂ _
      | some r =>
        dsimp only
        by_cases hc : r + 2 < acc.length
        · rw [if_pos hc]
          cases hdiv : find_divergence_point (pos.drop i) (acc.drop r) th2 with
          | none =>
            rcases ih (acc ++ [pos.getD i d0]) (i + 1) with ⟨s, hs, hsub⟩
            refine ⟨pos.getD i d0 :: s, by simpa using hs, ?_⟩
            rw [drop_getD_cons hi]
            exact hsub.cons₂ _
          | some dv =>
            rcases ih acc (i + dv) with ⟨s, hs, hsub⟩
            refine ⟨s, hs, ?_⟩
            have hdd : pos.drop (i + dv) = (pos.drop i).drop dv := by
              rw [List.drop_drop]
            rw [hdd] at hsub
            exact hsub.trans (List.drop_sublist _ _)
        · rw [if_neg hc]
          rcases ih (acc ++ [pos.getD i d0]) (i + 1) with ⟨s, hs, hsub⟩
          refine ⟨pos.getD i d0 :: s, by simpa using hs, ?_⟩
          rw [drop_getD_cons hi]
          exact hsub.cons₂ _
    · exact ⟨[], by simp [mergeAux, if_neg hi], List.nil_sublist _⟩

theorem merge_overlapping_segments_sublist (positions : List Q3) (th2 : ℚ) :
    List.Sublist (merge_overlapping_segments positions th2) positions := by
  unfold merge_overlapping_segments
  split
  · exact List.Sublist.refl _
  · rcases mergeAux_sublist positions th2 positions.length (positions.take 1) 1 with ⟨s, hs, hsub⟩
    rw [hs]
    have h1 : List.Sublist (positions.take 1 ++ s) (positions.take 1 ++ positions.drop 1) :=
      hsub.append_left _
    rwa [List.take_append_drop] at h1

theorem dedupPipeline_sublist (positions : List Q3) :
    List.Sublist (dedupPipeline positions) positions :=
  (deduplicate_path_sublist _ _).trans (merge_overlapping_segments_sublist positions 1)

/-- C5, amended: running the two-stage deduplicator twice yields a (possibly
strict) subsequence of running it once; the deduplicator is not idempotent in
general, because the back-and-forth merge stage can remove further points from
the already-deduplicated output. -/
theorem dedupPipeline_twice_sublist (positions : List Q3) :
    List.Sublist (dedupPipeline (dedupPipeline positions)) (dedupPipeline positions) :=
  dedupPipeline_sublist (dedupPipeline positions)

unseal Rat.add Rat.mul Rat.sub Rat.inv Nat.gcd in
/-- C5, counterexample: the two-stage deduplicator is not idempotent.  On this
7-point floor path the first run only removes the near-duplicate of the second
point, after which the revisit at the 6th point — anchored before only by the
removed near-duplicate — diverges immediately on the second run, so the second
run removes a further point. -/
theorem dedupPipeline_not_idempotent :
    dedupPipeline (dedupPipeline
        [(0, 0, 0), (3, 0, 0), (3, 9/20, 0), (6, 0, 0), (6, 3, 0),
         (17/5, 4/5, 0), (3, 71/50, 0)]) ≠
      dedupPipeline
        [(0, 0, 0), (3, 0, 0), (3, 9/20, 0), (6, 0, 0), (6, 3, 0),
         (17/5, 4/5, 0), (3, 71/50, 0)] := by
  decide

/-! ### VerticalDetector (`services/vertical_detector.py`)

`detect_stairs_first` marks vertical points with a sliding window over Z,
groups contiguous marked runs into candidate passages (discarding short or
shallow ones), classifies each, and finally merges adjacent same-direction
passages.  The window/grouping logic is exactly rational; the accumulated
planar path length `xy_length` is a sum of square roots, so a passage record
stores the squared planar segment lengths and the real-valued length and the
classification are derived from them. -/

/-- Passage classification. -/
inductive PassageType where
  | STAIRCASE : PassageType
  | ELEVATOR : PassageType
deriving DecidableEq

/-- Passage direction. -/
inductive Direction where
  | UP : Direction
  | DOWN : Direction
deriving DecidableEq

/-- A candidate vertical passage: the contiguous index range `[start, stop)`,
its endpoint heights, `z_displacement`, the squared planar lengths of its
consecutive segments (whose square roots sum to `xy_length`), and its
direction. -/
structure StairSeg where
  start : ℕ
  stop : ℕ
  zStart : ℚ
  zEnd : ℚ
  zDisp : ℚ
  xySqs : List ℚ
  dir : Direction
deriving DecidableEq

/-- `xy_length` of a passage: the planar path length over its range. -/
noncomputable def xyLenR (s : StairSeg) : ℝ :=
  (s.xySqs.map (fun q => Real.sqrt q)).sum

/-- `xy_z_ratio` of a passage (only ever used with `zDisp > 0`, which every
kept passage satisfies). -/
noncomputable def StairSeg.xyOverZ (s : StairSeg) : ℝ :=
  xyLenR s / (s.zDisp : ℝ)

/-- Classification: ELEVATOR when `xy_z_ratio < 1.0`, else STAIRCASE.  For
`zDisp > 0` the test `xy_length < z_disp` below is exactly `ratio < 1`; for
`zDisp = 0` the source's ratio is `inf` and the passage is a STAIRCASE, which
the test also yields since `xy_length >= 0`. -/
noncomputable def StairSeg.ptype (s : StairSeg) : PassageType :=
  if xyLenR s < (s.zDisp : ℝ) then PassageType.ELEVATOR else PassageType.STAIRCASE

/-- The sliding-window test of `detect_stairs_first` at window start `i`
(window size 10, `MIN_TOTAL_Z_CHANGE = 1.5`, `Z_CHANGE_THRESHOLD = 0.05`, the
pipeline's defaults): the net Z change over the window exceeds
`1.5 * (10 / 20)` and more than half of the per-step changes share its sign
with magnitude above `0.05 / 2`. -/
def windowCond (z zdiff : List ℚ) (i : ℕ) : Bool :=
  let wchange := z.getD (i + 10) 0 - z.getD i 0
  if 3 / 4 < |wchange| then
    if 0 < wchange then
      5 < ((List.range 10).filter (fun k => (1 : ℚ) / 40 < zdiff.getD (i + k) 0)).length
    else
      5 < ((List.range 10).filter (fun k => zdiff.getD (i + k) 0 < -(1 : ℚ) / 40)).length
  else false

/-- Heights of the trajectory points. -/
def zList (positions : List Q3) : List ℚ := positions.map (fun p => p.2.2)

/-- Per-step height changes (`np.diff(z)`). -/
def zDiffList (positions : List Q3) : List ℚ :=
  ((zList positions).zip (zList positions).tail).map (fun ab => ab.2 - ab.1)

/-- The `changing_z` mask: a point is marked vertical when some window
containing it satisfies the window test (the union of all marked windows
`[i, i + 10]`, for window starts `i < n - 10`). -/
def changing_z (positions : List Q3) : List Bool :=
  let n := positions.length
  let z := zList positions
  let zd := zDiffList positions
  (List.range n).map (fun j =>
    (List.range (n - 10)).any (fun i => decide (i ≤ j) && decide (j ≤ i + 10) && windowCond z zd i))

/-- The candidate passage over `[a, b)`. -/
def mkStairSeg (positions : List Q3) (a b : ℕ) : StairSeg :=
  let seg := (positions.drop a).take (b - a)
  let zStart := (positions.getD a d0).2.2
  let zEnd := (positions.getD (b - 1) d0).2.2
  { start := a, stop := b, zStart := zStart, zEnd := zEnd,
    zDisp := |zEnd - zStart|,
    xySqs := (seg.zip seg.tail).map (fun pq => sqDistXY pq.1 pq.2),
    dir := if zStart < zEnd then Direction.UP else Direction.DOWN }

/-- The inner `while` of the grouping loop: advance while inside the mask. -/
def endOfRun (mask : List Bool) : ℕ → ℕ → ℕ
  | 0, i => i
  | fuel + 1, i =>
    if i < mask.length ∧ mask.getD i false = true then endOfRun mask fuel (i + 1) else i

/-- The grouping loop of `detect_stairs_first`: walk the mask, cut out each
contiguous marked run `[i, e)`, and keep it as a candidate passage exactly when
`z_disp >= MIN_TOTAL_Z_CHANGE` and `e - i >= MIN_STAIR_POINTS`. -/
def detectAux (positions : List Q3) (mask : List Bool) : ℕ → ℕ → List StairSeg
  | 0, _ => []
  | fuel + 1, i =>
    if i < mask.length then
      if mask.getD i false = true then
        let e := endOfRun mask mask.length i
        if 3 / 2 ≤ |(positions.getD (e - 1) d0).2.2 - (positions.getD i d0).2.2| ∧ 5 ≤ e - i then
          mkStairSeg positions i e :: detectAux positions mask fuel e
        else detectAux positions mask fuel e
      else detectAux positions mask fuel (i + 1)
    else []

/-- The candidate passages of `detect_stairs_first`, before segment merging. -/
def detect_stairs_segments (positions : List Q3) : List StairSeg :=
  detectAux positions (changing_z positions) positions.length 0

/-- Merging of two adjacent same-direction passages: extend the range, keep
the first passage's direction, recompute `z_end`, `z_displacement` and the
planar lengths over the union. -/
def mergeTwoSegs (positions : List Q3) (c s : StairSeg) : StairSeg :=
  let seg := (positions.drop c.start).take (s.stop - c.start)
  { start := c.start, stop := s.stop, zStart := c.zStart, zEnd := s.zEnd,
    zDisp := |s.zEnd - c.zStart|,
    xySqs := (seg.zip seg.tail).map (fun pq => sqDistXY pq.1 pq.2),
    dir := c.dir }

/-- The folding loop of `_merge_stair_segments`. -/
def mergeStairAux (positions : List Q3) (current : StairSeg) : List StairSeg → List StairSeg
  | [] => [current]
  | seg :: rest =>
    if current.dir = seg.dir ∧ seg.start - current.stop < 10 then
      mergeStairAux positions (mergeTwoSegs positions current seg) rest
    else current :: mergeStairAux positions seg rest

/-- `_merge_stair_segments`: merge adjacent same-direction passages whose
index gap is below `GAP_THRESHOLD = 10`. -/
def merge_stair_segments (positions : List Q3) : List StairSeg → List StairSeg
  | [] => []
  | c :: rest => mergeStairAux positions c rest

/-- The vertical-point mask returned by `detect_stairs_first` (`True` on the
range of every kept candidate passage). -/
def stair_mask (positions : List Q3) : List Bool :=
  (List.range positions.length).map (fun j =>
    (detect_stairs_segments positions).any (fun s => decide (s.start ≤ j) && decide (j < s.stop)))

/-- `detect_stairs_first`: the merged passages and the vertical mask. -/
def detect_stairs_first (positions : List Q3) : List StairSeg × List Bool :=
  (merge_stair_segments positions (detect_stairs_segments positions), stair_mask positions)

/-- A maximal contiguous run `[a, b)` of the mask. -/
def isMaximalRun (mask : List Bool) (a b : ℕ) : Bool :=
  decide (a < b) && decide (b ≤ mask.length) &&
    ((List.range' a (b - a)).all (fun k => mask.getD k false)) &&
    (decide (a = 0) || !mask.getD (a - 1) false) &&
    (decide (b = mask.length) || !mask.getD b false)

theorem changing_z_length (positions : List Q3) :
    (changing_z positions).length = positions.length := by
  simp [changing_z]

theorem endOfRun_ge (mask : List Bool) :
    ∀ (fuel i : ℕ), i ≤ endOfRun mask fuel i := by
  intro fuel
  induction fuel with
  | zero => intro i; simp [endOfRun]
  | succ f ih =>
    intro i
    unfold endOfRun
    split
    · exact Nat.le_trans (Nat.le_succ i) (ih (i + 1))
    · exact Nat.le_refl i

theorem endOfRun_le_false (mask : List Bool) :
    ∀ (fuel i j : ℕ), i ≤ j → mask.getD j false = false →
      endOfRun mask fuel i ≤ j := by
  intro fuel
  induction fuel with
  | zero => intro i j hij _; simpa [endOfRun] using hij
  | succ f ih =>
    intro i j hij hj
    unfold endOfRun
    split
    · rename_i h
      have hne : i ≠ j := by
        intro hh
        rw [hh] at h
        rw [hj] at h
        exact Bool.false_ne_true h.2
      exact ih (i + 1) j (by omega) hj
    · exact hij

theorem endOfRun_progress (mask : List Bool) (fuel i : ℕ) (hf : 1 ≤ fuel)
    (hi : i < mask.length) (hm : mask.getD i false = true) :
    i + 1 ≤ endOfRun mask fuel i := by
  cases fuel with
  | zero => omega
  | succ f =>
    unfold endOfRun
    rw [if_pos ⟨hi, hm⟩]
    exact endOfRun_ge mask f (i + 1)

theorem endOfRun_eq (mask : List Bool) :
    ∀ (fuel i b : ℕ), i ≤ b → b ≤ mask.length → b - i ≤ fuel →
      (∀ k, i ≤ k → k < b → mask.getD k false = true) →
      (b = mask.length ∨ mask.getD b false = false) →
      endOfRun mask fuel i = b := by
  intro fuel
  induction fuel with
  | zero =>
    intro i b hib hbn hf _ _
    have : i = b := by omega
    simpa [endOfRun] using this
  | succ f ih =>
    intro i b hib hbn hf hall hend
    unfold endOfRun
    rcases Nat.eq_or_lt_of_le hib with rfl | hlt
    · rcases hend with hbn2 | hmb
      · rw [if_neg]
        intro hcon
        omega
      · rw [if_neg]
        intro hcon
        rw [hmb] at hcon
        exact Bool.false_ne_true hcon.2
    · rw [if_pos ⟨by omega, hall i (Nat.le_refl i) hlt⟩]
      exact ih (i + 1) b (by omega) hbn (by omega)
        (fun k hk1 hk2 => hall k (by omega) hk2) hend

/-- The keep condition of the grouping loop over the run `[a, b)`. -/
def keptRunCond (positions : List Q3) (a b : ℕ) : Prop :=
  3 / 2 ≤ |(positions.getD (b - 1) d0).2.2 - (positions.getD a d0).2.2| ∧ 5 ≤ b - a

instance (positions : List Q3) (a b : ℕ) : Decidable (keptRunCond positions a b) := by
  unfold keptRunCond
  infer_instance

theorem detectAux_mem (positions : List Q3) (mask : List Bool) :
    ∀ (fuel i : ℕ), ∀ s ∈ detectAux positions mask fuel i,
      ∃ a b, s = mkStairSeg positions a b ∧ keptRunCond positions a b := by
  intro fuel
  induction fuel with
  | zero => intro i s hs; simp [detectAux] at hs
  | succ f ih =>
    intro i s hs
    unfold detectAux at hs
    by_cases hi : i < mask.length
    · rw [if_pos hi] at hs
      by_cases hm : mask.getD i false = true
      · rw [if_pos hm] at hs
        dsimp only at hs
        by_cases hk : 3 / 2 ≤
              |(positions.getD (endOfRun mask mask.length i - 1) d0).2.2 -
                (positions.getD i d0).2.2| ∧
            5 ≤ endOfRun mask mask.length i - i
        · rw [if_pos hk] at hs
          rcases List.mem_cons.mp hs with rfl | htail
          · exact ⟨i, endOfRun mask mask.length i, rfl, hk⟩
          · exact ih _ s htail
        · rw [if_neg hk] at hs
          exact ih _ s hs
      · rw [if_neg hm] at hs
        exact ih _ s hs
    · rw [if_neg hi] at hs
      simp at hs

theorem detectAux_complete (positions : List Q3) (mask : List Bool)
    (a b : ℕ) (hrun : isMaximalRun mask a b = true)
    (hk : keptRunCond positions a b) :
    ∀ (fuel i : ℕ), i ≤ a → mask.length - i ≤ fuel →
      mkStairSeg positions a b ∈ detectAux positions mask fuel i := by
  unfold isMaximalRun at hrun
  simp only [Bool.and_eq_true, decide_eq_true_eq, List.all_eq_true,
    Bool.or_eq_true, Bool.not_eq_true'] at hrun
  obtain ⟨⟨⟨⟨hab, hbn⟩, hall⟩, hleft⟩, hright⟩ := hrun
  have hall2 : ∀ k, a ≤ k → k < b → mask.getD k false = true := by
    intro k hk1 hk2
    apply hall
    rw [List.mem_range'_1]
    omega
  have hright2 : b = mask.length ∨ mask.getD b false = false := by
    rcases hright with h | h
    · exact Or.inl h
    · exact Or.inr h
  intro fuel
  induction fuel with
  | zero =>
    intro i hia hfi
    exfalso
    omega
  | succ f ih =>
    intro i hia hfi
    have hi_n : i < mask.length := by omega
    unfold detectAux
    rw [if_pos hi_n]
    rcases Nat.eq_or_lt_of_le hia with rfl | hlt
    · rw [if_pos (hall2 i (Nat.le_refl i) hab)]
      have he : endOfRun mask mask.length i = b :=
        endOfRun_eq mask mask.length i b (Nat.le_of_lt hab) hbn (by omega) hall2 hright2
      dsimp only
      rw [he]
      split
      · exact List.mem_cons_self _ _
      · rename_i hcon
        exact absurd hk hcon
    · have ha1 : 1 ≤ a := by omega
      have hfa : mask.getD (a - 1) false = false := by
        rcases hleft with h | h
        · omega
        · exact h
      by_cases hmi : mask.getD i false = true
      · rw [if_pos hmi]
        have he_le : endOfRun mask mask.length i ≤ a - 1 :=
          endOfRun_le_false mask mask.length i (a - 1) (by omega) hfa
        have he_ge : i + 1 ≤ endOfRun mask mask.length i :=
          endOfRun_progress mask mask.length i (by omega) hi_n hmi
        dsimp only
        split
        · exact List.mem_cons_of_mem _ (ih _ (by omega) (by omega))
        · exact ih _ (by omega) (by omega)
      · rw [if_neg hmi]
        exact ih (i + 1) (by omega) (by omega)

/-- C6: the vertical detector keeps a contiguous vertical run `[a, b)` of the
`changing_z` mask as a candidate passage iff `b - a >= MIN_STAIR_POINTS` (5)
and `|z_end - z_start| >= MIN_TOTAL_Z_CHANGE` (1.5); every kept passage is
classified ELEVATOR iff its `xy_z_ratio` is below 1.0 (STAIRCASE otherwise)
and has direction UP iff `z_end > z_start`. -/
theorem detect_stairs_candidate_runs :
    (∀ (positions : List Q3) (a b : ℕ),
        isMaximalRun (changing_z positions) a b = true →
        ((∃ s ∈ detect_stairs_segments positions, s.start = a ∧ s.stop = b) ↔
          (3 / 2 ≤ |(positions.getD (b - 1) d0).2.2 - (positions.getD a d0).2.2| ∧
            5 ≤ b - a))) ∧
      ∀ (positions : List Q3), ∀ s ∈ detect_stairs_segments positions,
        (StairSeg.ptype s = PassageType.ELEVATOR ↔ StairSeg.xyOverZ s < 1) ∧
        (s.dir = Direction.UP ↔ s.zStart < s.zEnd) := by
  constructor
  · intro positions a b hrun
    constructor
    · rintro ⟨s, hsmem, hsa, hsb⟩
      rcases detectAux_mem positions (changing_z positions) _ _ s hsmem with ⟨a2, b2, rfl, hk⟩
      have ha : a2 = a := hsa
      have hb : b2 = b := hsb
      subst ha
      subst hb
      exact hk
    · intro hcond
      refine ⟨mkStairSeg positions a b, ?_, rfl, rfl⟩
      exact detectAux_complete positions (changing_z positions) a b hrun hcond
        positions.length 0 (Nat.zero_le a) (by rw [changing_z_length]; omega)
  · intro positions s hsmem
    rcases detectAux_mem positions (changing_z positions) _ _ s hsmem with ⟨a2, b2, rfl, hk⟩
    have hz : (0 : ℚ) < (mkStairSeg positions a2 b2).zDisp := by
      have := hk.1
      unfold mkStairSeg
      dsimp only
      linarith
    constructor
    · unfold StairSeg.ptype StairSeg.xyOverZ
      have hzr : (0 : ℝ) < ((mkStairSeg positions a2 b2).zDisp : ℝ) := by exact_mod_cast hz
      rw [div_lt_one hzr]
      by_cases hlt : xyLenR (mkStairSeg positions a2 b2) <
          ((mkStairSeg positions a2 b2).zDisp : ℝ)
      · simp [hlt]
      · simp [hlt]
    · unfold mkStairSeg
      dsimp only
      by_cases hud : (positions.getD a2 d0).2.2 < (positions.getD (b2 - 1) d0).2.2
      · simp [hud]
      · simp [hud]

unseal Rat.add Rat.mul Rat.sub Rat.inv Nat.gcd in
/-- Witness for C6: a 12-point vertical climb (z rising by 0.2 per step) is a
single maximal run of the mask and is kept as a candidate passage. -/
theorem detect_stairs_candidate_runs_witness :
    isMaximalRun (changing_z
        [(0, 0, 0), (0, 0, 1/5), (0, 0, 2/5), (0, 0, 3/5), (0, 0, 4/5),
         (0, 0, 1), (0, 0, 6/5), (0, 0, 7/5), (0, 0, 8/5), (0, 0, 9/5),
         (0, 0, 2), (0, 0, 11/5)]) 0 12 = true ∧
      ∃ s ∈ detect_stairs_segments
        [(0, 0, 0), (0, 0, 1/5), (0, 0, 2/5), (0, 0, 3/5), (0, 0, 4/5),
         (0, 0, 1), (0, 0, 6/5), (0, 0, 7/5), (0, 0, 8/5), (0, 0, 9/5),
         (0, 0, 2), (0, 0, 11/5)], s.start = 0 ∧ s.stop = 12 :=
  ⟨by decide,
    (detect_stairs_candidate_runs.1 _ 0 12 (by decide)).mpr (by constructor <;> decide)⟩

/-! ### FloorSeparator (`_cluster_z_values` in `services/vertical_detector.py`)

The Z histogram, its Gaussian smoothing, peak finding and the uniform-slab
fallback.  `gaussian_filter1d(sigma=1.5)` uses a 13-tap truncated Gaussian
kernel with reflect boundary handling; we embed it with fixed-point integer
weights (approximations of `exp(-k^2 / 4.5)` scaled by `10^6`), normalized
exactly by their sum.  Every theorem below depends only on the kernel being
nonnegative and normalized, never on the individual weight values. -/

/-- Integer weights of the truncated Gaussian kernel (sigma = 1.5 bins,
radius 6). -/
def gaussKernelInt : List ℤ :=
  [335, 3866, 28566, 135335, 411112, 800737, 1000000,
   800737, 411112, 135335, 28566, 3866, 335]

/-- Reflect boundary indexing (scipy mode `reflect`: `d c b a | a b c d | d c b a`). -/
def reflectIdx (m : ℕ) (i : ℤ) : ℕ :=
  if i < 0 then (-i - 1).toNat
  else if i < (m : ℤ) then i.toNat
  else (2 * (m : ℤ) - 1 - i).toNat

/-- Histogram bin index of a value (`np.histogram` with `nbins` equal-width
bins over `[zmin, zmin + nbins * w]`; the last bin is inclusive on the right,
hence the clamp). -/
def histIndex (zmin w : ℚ) (nbins : ℕ) (v : ℚ) : ℕ :=
  min (nbins - 1) (Int.toNat ⌊(v - zmin) / w⌋)

/-- The histogram counts. -/
def histCounts (zs : List ℚ) (zmin w : ℚ) (nbins : ℕ) : List ℕ :=
  (List.range nbins).map (fun k => (zs.filter (fun v => histIndex zmin w nbins v = k)).length)

/-- `gaussian_filter1d` of the histogram: each output bin is the normalized
kernel-weighted combination of the input bins, with reflect boundary. -/
def smoothedHist (hist : List ℕ) : List ℚ :=
  let m := hist.length
  let s : ℚ := (gaussKernelInt.sum : ℚ)
  (List.range m).map (fun k =>
    ((List.range 13).map (fun t =>
      ((gaussKernelInt.getD t 0 : ℚ)) *
        ((hist.getD (reflectIdx m ((k : ℤ) + (t : ℤ) - 6)) 0 : ℚ)))).sum / s)

/-- Group consecutive significant bins (gap at most 2) into regions; `cur`
holds the current region reversed. -/
def groupBinsAux : List ℕ → List ℕ → List (List ℕ)
  | [], cur => [cur.reverse]
  | i :: rest, cur =>
    match cur with
    | [] => groupBinsAux rest [i]
    | j :: _ =>
      if i - j ≤ 2 then groupBinsAux rest (i :: cur)
      else cur.reverse :: groupBinsAux rest [i]

/-- Group the significant-bin indices into regions. -/
def groupBins : List ℕ → List (List ℕ)
  | [] => []
  | i :: rest => groupBinsAux rest [i]

/-- `_find_histogram_peaks`: significant bins (smoothed count at least
`min_count`), grouped into regions; each region's peak is the count-weighted
mean of its bin centers; a peak within `0.7 * threshold` of an accepted peak
is dropped. -/
def find_histogram_peaks (smoothed : List ℚ) (zmin w minCount threshold : ℚ) : List ℚ :=
  let sig := (List.range smoothed.length).filter (fun i => minCount ≤ smoothed.getD i 0)
  (groupBins sig).foldl (fun peaks region =>
    let tot := (region.map (fun i => smoothed.getD i 0)).sum
    if 0 < tot then
      let peakZ := (region.map (fun (i : ℕ) =>
        (zmin + ((i : ℚ) + 1/2) * w) * smoothed.getD i 0)).sum / tot
      if peaks.all (fun e => threshold * (7/10) ≤ |peakZ - e|) then peaks ++ [peakZ]
      else peaks
    else peaks) []

/-- Minimum of the Z values (`z_values.min()`). -/
def zminOf (zs : List ℚ) : ℚ := (zs.minimum?).getD 0

/-- Maximum of the Z values (`z_values.max()`). -/
def zmaxOf (zs : List ℚ) : ℚ := (zs.maximum?).getD 0

/-- The peak list `_cluster_z_values` computes before its empty-peaks check:
`num_bins = max(int(z_range / 0.5), 20)` bins over the Z range, smoothing,
then peak finding with `min_count = 3%` of the points. -/
def cluster_peaks_raw (zs : List ℚ) (threshold : ℚ) : List ℚ :=
  let zmin := zminOf zs
  let zrange := zmaxOf zs - zmin
  let nbins := max (Int.toNat ⌊zrange / (1/2 : ℚ)⌋) 20
  let w := zrange / (nbins : ℚ)
  find_histogram_peaks (smoothedHist (histCounts zs zmin w nbins)) zmin w
    ((zs.length : ℚ) * (3/100)) threshold

/-- The peaks `_cluster_z_values` assigns points to: empty for a single-floor
range, the sorted found peaks, or — when no peaks survive — the uniform
fallback of `max(1, int(z_range / threshold) + 1)` slab centers. -/
def cluster_z_peaks (zs : List ℚ) (threshold : ℚ) : List ℚ :=
  let zmin := zminOf zs
  let zrange := zmaxOf zs - zmin
  if zrange < threshold then []
  else
    let peaks := cluster_peaks_raw zs threshold
    if peaks = [] then
      let numFloors := max 1 (Int.toNat ⌊zrange / threshold⌋ + 1)
      (List.range numFloors).map (fun (i : ℕ) => zmin + ((i : ℚ) + 1/2) * (zrange / (numFloors : ℚ)))
    else peaks.insertionSort (· ≤ ·)

/-- 36 Z values: 0, 0.5, …, 17, and 18 (range 18, one point per 0.5 m bin,
none at 17.5). -/
def zUniform36 : List ℚ := (List.range 35).map (fun (k : ℕ) => (k : ℚ) / 2) ++ [18]

unseal Rat.add Rat.mul Rat.sub Rat.inv Nat.gcd in
/-- C4, counterexample: on 36 points spread uniformly over an 18 m Z range the
smoothed histogram is constant at 1 < 3% of 36, so peak detection yields no
peaks; the fallback then partitions into `int(18/3) + 1 = 7` slabs, not
`ceil(18/3) = 6` as the claim states. -/
theorem cluster_z_fallback_not_ceil :
    cluster_peaks_raw zUniform36 3 = [] ∧
      3 ≤ zmaxOf zUniform36 - zminOf zUniform36 ∧
      (cluster_z_peaks zUniform36 3).length = 7 ∧
      Int.toNat ⌈(zmaxOf zUniform36 - zminOf zUniform36) / 3⌉ = 6 := by
  refine ⟨by decide, by decide, by decide, by decide⟩

/-- C4, amended: when the Z range is at least the floor height and histogram
peak detection yields no peaks, the fallback partitions the range into exactly
`floor(z_range / threshold) + 1` uniform slabs — one more than
`ceil(z_range / threshold)` whenever the range is an exact multiple of the
floor height. -/
theorem cluster_z_fallback_count (zs : List ℚ) (threshold : ℚ)
    (hrange : threshold ≤ zmaxOf zs - zminOf zs)
    (hnopeaks : cluster_peaks_raw zs threshold = []) :
    (cluster_z_peaks zs threshold).length =
      Int.toNat ⌊(zmaxOf zs - zminOf zs) / threshold⌋ + 1 := by
  unfold cluster_z_peaks
  rw [if_neg (by linarith), if_pos hnopeaks]
  simp only [List.length_map, List.length_range]
  exact Nat.max_eq_right (Nat.succ_le_succ (Nat.zero_le _))

unseal Rat.add Rat.mul Rat.sub Rat.inv Nat.gcd in
/-- Witness for C4's amended theorem at the concrete 36-point input. -/
theorem cluster_z_fallback_count_witness :
    (3 : ℚ) ≤ zmaxOf zUniform36 - zminOf zUniform36 ∧
      (cluster_z_peaks zUniform36 3).length =
        Int.toNat ⌊(zmaxOf zUniform36 - zminOf zUniform36) / 3⌋ + 1 :=
  ⟨by decide, cluster_z_fallback_count zUniform36 3 (by decide) (by decide)⟩

/-! ### GraphBuilder and FloorGraphMerger (`services/junction_detection.py`)

Junction detection, node extraction, edge extraction with path-length weights,
and the cross-floor merge.  The `angle >= 45 degrees` test of the source
(`degrees(arccos(clip(dot/(l1*l2))))`) is embedded by the exactly equivalent
rational test `dot < 0 or 2*dot^2 <= |v1|^2 * |v2|^2` (cosine is decreasing,
`cos 45 = sqrt 2 / 2`); near-zero vectors yield angle 0 as in the source.
Edge distances are real-valued path lengths, so edge extraction lives on the
classically decidable side. -/

/-- The node types of the path graph. -/
inductive NodeType where
  | WAYPOINT : NodeType
  | JUNCTION : NodeType
  | ENDPOINT : NodeType
  | POI_CANDIDATE : NodeType
  | PASSAGE_ENTRY : NodeType
  | PASSAGE_EXIT : NodeType
deriving DecidableEq

/-- A path-graph node: original index, position, type, floor level.  (The
fresh string id of the source carries no information and is omitted; edges
reference nodes directly.) -/
structure PathNode where
  idx : ℕ
  pos : Q3
  ntype : NodeType
  floor : Option ℕ
deriving DecidableEq

/-- The edge kinds. -/
inductive EdgeKind where
  | HORIZONTAL : EdgeKind
  | VERTICAL_STAIRCASE : EdgeKind
  | VERTICAL_ELEVATOR : EdgeKind
deriving DecidableEq

/-- A path-graph edge with its path-length distance. -/
structure PathEdge where
  fromN : PathNode
  toN : PathNode
  distance : ℝ
  kind : EdgeKind
  bidirectional : Bool

/-- `_angle_between_vectors(v1, v2) >= 45`: false when either vector is
near-zero (the source returns angle 0), else `cos angle <= sqrt 2 / 2`,
i.e. `dot < 0` or `2 * dot^2 <= |v1|^2 * |v2|^2`. -/
def angleGE45 (v1 v2 : Q3) : Bool :=
  let s1 := normSq v1
  let s2 := normSq v2
  if s1 < 1 / 10 ^ 20 ∨ s2 < 1 / 10 ^ 20 then false
  else
    let d := vdot v1 v2
    decide (d < 0) || decide (2 * d ^ 2 ≤ s1 * s2)

/-- A detected junction: its polyline index and (possibly merged) position. -/
structure Junction where
  idx : ℕ
  pos : Q3
deriving DecidableEq

/-- The grouping pass of `_merge_nearby_junctions`: the first junction claims
every later one within `JUNCTION_MERGE_RADIUS = 1.5` m of it; a group of more
than one is replaced by its positional mean at the first member's index. -/
def mergeJuncAux : ℕ → List Junction → List Junction
  | 0, _ => []
  | _, [] => []
  | fuel + 1, j :: rest =>
    let near := rest.filter (fun k => sqDist j.pos k.pos < 9 / 4)
    let far := rest.filter (fun k => ¬ sqDist j.pos k.pos < 9 / 4)
    if near.isEmpty then j :: mergeJuncAux fuel far
    else
      let grp := j :: near
      let n : ℚ := (grp.length : ℚ)
      let c : Q3 := ((grp.map (fun g => g.pos.1)).sum / n,
        (grp.map (fun g => g.pos.2.1)).sum / n,
        (grp.map (fun g => g.pos.2.2)).sum / n)
      ⟨j.idx, c⟩ :: mergeJuncAux fuel far

/-- `_merge_nearby_junctions`. -/
def merge_nearby_junctions (js : List Junction) : List Junction :=
  if js.length < 2 then js else mergeJuncAux js.length js

/-- `detect_junctions`: direction vectors, the turning-angle test at each
interior index with at least `MIN_BRANCH_LENGTH = 3` points on both sides,
then merging of nearby junctions.  (The source's `angle_change` field is
carried nowhere downstream and is omitted.) -/
def detect_junctions (positions : List Q3) : List Junction :=
  if positions.length < 5 then []
  else
    let dirs := (positions.zip positions.tail).map (fun ab => vsub ab.2 ab.1)
    merge_nearby_junctions
      ((List.range' 1 (dirs.length - 2)).filterMap (fun (i : ℕ) =>
        if angleGE45 (dirs.getD (i - 1) d0) (dirs.getD i d0) ∧
            3 ≤ i ∧ 3 ≤ positions.length - i - 1 then
          some ⟨i, positions.getD i d0⟩
        else none))

/-- The interior loop of `extract_path_nodes` over indices `1 .. n-2`,
carrying the position of the last emitted node: a junction index is always
emitted (and becomes the new reference), any other index is emitted as a
WAYPOINT exactly when its distance from the last emitted node is at least the
node spacing. -/
def emitNodes (positions : List Q3) (J : List ℕ) (sp2 : ℚ) (floor : Option ℕ) :
    List ℕ → Q3 → List PathNode
  | [], _ => []
  | i :: rest, lastPos =>
    let pos := positions.getD i d0
    if i ∈ J then
      ⟨i, pos, NodeType.JUNCTION, floor⟩ :: emitNodes positions J sp2 floor rest pos
    else if sp2 ≤ sqDist pos lastPos then
      ⟨i, pos, NodeType.WAYPOINT, floor⟩ :: emitNodes positions J sp2 floor rest pos
    else emitNodes positions J sp2 floor rest lastPos

/-- `extract_path_nodes`: index 0 as ENDPOINT, the interior loop, and the
final index as ENDPOINT; fewer than 2 points yield no nodes.  `sp2` is the
squared node spacing (the pipeline uses `NODE_SPACING = 1.0`). -/
def extract_path_nodes (positions : List Q3) (J : List ℕ) (sp2 : ℚ)
    (floor : Option ℕ) : List PathNode :=
  if positions.length < 2 then []
  else
    ⟨0, positions.getD 0 d0, NodeType.ENDPOINT, floor⟩ ::
      (emitNodes positions J sp2 floor (List.range' 1 (positions.length - 2))
          (positions.getD 0 d0) ++
        [⟨positions.length - 1, positions.getD (positions.length - 1) d0,
          NodeType.ENDPOINT, floor⟩])

/-- `_calculate_path_distance`: the path length along the polyline between two
indices (0 when `start >= end`). -/
noncomputable def path_distance (positions : List Q3) (s e : ℕ) : ℝ :=
  ((List.range (e - s)).map (fun (k : ℕ) =>
    dist3 (positions.getD (s + k) d0) (positions.getD (s + k + 1) d0))).sum

/-- Ordering of nodes by original index (the sort key of `extract_path_edges`). -/
def nodeLE (a b : PathNode) : Prop := a.idx ≤ b.idx

instance : DecidableRel nodeLE := fun a b => Nat.decLe a.idx b.idx

instance : IsTotal PathNode nodeLE := ⟨fun a b => Nat.le_total a.idx b.idx⟩

instance : IsTrans PathNode nodeLE := ⟨fun _ _ _ => Nat.le_trans⟩

open Classical in
/-- `extract_path_edges`: sort the nodes by original index, connect each
consecutive pair with a HORIZONTAL bidirectional edge weighted by the path
distance between their indices, and drop edges longer than
`EDGE_CONNECTION_RADIUS = 3.0`. -/
noncomputable def extract_path_edges (nodes : List PathNode) (positions : List Q3) :
    List PathEdge :=
  if nodes.length < 2 then []
  else
    let sorted := List.insertionSort nodeLE nodes
    (sorted.zip sorted.tail).filterMap (fun nn =>
      let d := path_distance positions nn.1.idx nn.2.idx
      if d ≤ 3 then some ⟨nn.1, nn.2, d, EdgeKind.HORIZONTAL, true⟩ else none)

/-- `build_path_graph`: junction detection, node extraction with the default
spacing 1.0, edge extraction. -/
noncomputable def build_path_graph (positions : List Q3) (floor : ℕ) :
    List PathNode × List PathEdge :=
  let nodes := extract_path_nodes positions
    ((detect_junctions positions).map (fun j => j.idx)) 1 (some floor)
  (nodes, extract_path_edges nodes positions)

/-- A vertical-passage dictionary as consumed by `merge_floor_graphs`:
`passage.get('entry_point')` / `passage.get('exit_point')` are `Option`s
because the pipeline's passage dictionaries carry no such keys. -/
structure PassageDict where
  ptype : PassageType
  fromFloor : ℕ
  toFloor : ℕ
  zDisp : ℚ
  entryPoint : Option Q3
  exitPoint : Option Q3
deriving DecidableEq

/-- `_find_nearest_node_to_position`: `None` without a position or nodes, else
the first node (in list order) at minimal Euclidean distance among nodes on
the requested floor. -/
def find_nearest_node_to_position (nodes : List PathNode) (position : Option Q3)
    (floor : Option ℕ) : Option PathNode :=
  match position with
  | none => none
  | some t =>
    if nodes.isEmpty then none
    else
      (nodes.foldl (fun best nd =>
        if floor ≠ none ∧ nd.floor ≠ floor then best
        else
          match best with
          | none => some (nd, sqDist t nd.pos)
          | some (b, bd) =>
            if sqDist t nd.pos < bd then some (nd, sqDist t nd.pos) else some (b, bd))
        none).map (fun x => x.1)

/-- The vertical edge kind of a passage type (`edge_type = f"VERTICAL_{t}"`). -/
def vertical_kind : PassageType → EdgeKind
  | PassageType.STAIRCASE => EdgeKind.VERTICAL_STAIRCASE
  | PassageType.ELEVATOR => EdgeKind.VERTICAL_ELEVATOR

/-- The vertical edge `merge_floor_graphs` builds for a passage, when the
nearest-node lookups for its entry and exit points both succeed. -/
noncomputable def vertical_edge_of (allNodes : List PathNode) (pd : PassageDict) :
    Option PathEdge :=
  match find_nearest_node_to_position allNodes pd.entryPoint (some pd.fromFloor),
      find_nearest_node_to_position allNodes pd.exitPoint (some pd.toFloor) with
  | some en, some ex =>
    some (PathEdge.mk en ex (pd.zDisp : ℝ) (vertical_kind pd.ptype) true)
  | _, _ => none

/-- `merge_floor_graphs`: collect all floor nodes and edges, then for each
passage look up the nearest nodes to its entry/exit points on its floors and,
when both exist, add a bidirectional vertical edge weighted by the passage's
`z_displacement`. -/
noncomputable def merge_floor_graphs
    (floorGraphs : List (ℕ × List PathNode × List PathEdge))
    (passages : List PassageDict) : List PathNode × List PathEdge :=
  let allNodes := (floorGraphs.map (fun g => g.2.1)).flatten
  let floorEdges := (floorGraphs.map (fun g => g.2.2)).flatten
  (allNodes, floorEdges ++ passages.filterMap (vertical_edge_of allNodes))

/-- `_find_nearest_floor`: the floor whose mean Z is nearest to the value
(first minimum in iteration order; 0 when no floors exist). -/
def find_nearest_floor (zval : ℚ) (floors : List (ℕ × ℚ)) : ℕ :=
  ((floors.foldl (fun best fl =>
    match best with
    | none => some (fl.1, |fl.2 - zval|)
    | some (bf, bd) =>
      if |fl.2 - zval| < bd then some (fl.1, |fl.2 - zval|) else some (bf, bd))
    none).map (fun x => x.1)).getD 0

/-- `assign_floors_to_stairs`: attach `from_floor` / `to_floor` to each
passage by nearest mean Z. -/
def assign_floors_to_stairs (segs : List StairSeg) (floors : List (ℕ × ℚ)) :
    List (StairSeg × ℕ × ℕ) :=
  segs.map (fun s => (s, find_nearest_floor s.zStart floors, find_nearest_floor s.zEnd floors))

/-- The passage dictionary the pipeline hands to `merge_floor_graphs`: the
detector's fields plus the assigned floors.  The detector never sets an
`entry_point` or `exit_point` key, so both lookups are `none`. -/
noncomputable def passage_dict_of (s : StairSeg) (fromF toF : ℕ) : PassageDict :=
  { ptype := StairSeg.ptype s, fromFloor := fromF, toFloor := toF,
    zDisp := s.zDisp, entryPoint := none, exitPoint := none }

/-- The passages `process_path_async` passes to `merge_floor_graphs`:
`assign_floors_to_stairs(detect_stairs_first(positions), floors)`. -/
noncomputable def pipeline_passages (positions : List Q3) (floors : List (ℕ × ℚ)) :
    List PassageDict :=
  (assign_floors_to_stairs (detect_stairs_first positions).1 floors).map
    (fun t => passage_dict_of t.1 t.2.1 t.2.2)

/-- C1: every passage dictionary the pipeline builds lacks the
`entry_point` / `exit_point` keys, and `merge_floor_graphs` adds **no**
vertical edge for any passage without an entry point — the merged edge set is
exactly the union of the per-floor HORIZONTAL edges, contradicting the claimed
(and intended, per the function's own documentation) cross-floor edges. -/
theorem merge_floor_graphs_never_vertical :
    (∀ (positions : List Q3) (floors : List (ℕ × ℚ)),
        ∀ pd ∈ pipeline_passages positions floors, pd.entryPoint = none) ∧
      ∀ (floorGraphs : List (ℕ × List PathNode × List PathEdge))
        (passages : List PassageDict),
        (∀ pd ∈ passages, pd.entryPoint = none) →
        (merge_floor_graphs floorGraphs passages).2 =
          (floorGraphs.map (fun g => g.2.2)).flatten := by
  constructor
  · intro positions floors pd hpd
    unfold pipeline_passages at hpd
    rcases List.mem_map.mp hpd with ⟨t, _, rfl⟩
    rfl
  · intro floorGraphs passages h
    unfold merge_floor_graphs
    dsimp only
    have hnil : passages.filterMap
        (vertical_edge_of ((floorGraphs.map (fun g => g.2.1)).flatten)) = [] := by
      rw [List.filterMap_eq_nil_iff]
      intro pd hpd
      unfold vertical_edge_of find_nearest_node_to_position
      rw [h pd hpd]
    rw [hnil, List.append_nil]

unseal Rat.add Rat.mul Rat.sub Rat.inv Nat.gcd in
/-- Witness for C1 at a concrete failing input: two floors, each with a node,
and a staircase passage shaped exactly as the pipeline builds it (no entry or
exit point).  The merged graph has no edge at all, even though a nearest node
exists on floor 1 when a position is actually supplied. -/
theorem merge_floor_graphs_never_vertical_witness :
    (∀ pd ∈ ([⟨PassageType.STAIRCASE, 1, 2, 3, none, none⟩] : List PassageDict),
        pd.entryPoint = none) ∧
      (merge_floor_graphs
          [(1, [⟨0, (0, 0, 0), NodeType.ENDPOINT, some 1⟩], []),
           (2, [⟨0, (0, 0, 3), NodeType.ENDPOINT, some 2⟩], [])]
          [⟨PassageType.STAIRCASE, 1, 2, 3, none, none⟩]).2 = [] ∧
      (find_nearest_node_to_position
          [⟨0, (0, 0, 0), NodeType.ENDPOINT, some 1⟩,
           ⟨0, (0, 0, 3), NodeType.ENDPOINT, some 2⟩]
          (some (0, 0, 0)) (some 1)).isSome = true :=
  ⟨by decide,
    (merge_floor_graphs_never_vertical.2
      [(1, [⟨0, (0, 0, 0), NodeType.ENDPOINT, some 1⟩], []),
       (2, [⟨0, (0, 0, 3), NodeType.ENDPOINT, some 2⟩], [])]
      [⟨PassageType.STAIRCASE, 1, 2, 3, none, none⟩] (by decide)).trans rfl,
    by decide⟩

/-- The largest node index below `i` among the emitted nodes, with a base
value (the index of the node last emitted before the scan). -/
def lastIdxBefore (out : List PathNode) (base i : ℕ) : ℕ :=
  ((out.map (fun nd => nd.idx)).filter (fun k => k < i)).foldr max base

theorem foldr_max_base (xs : List ℕ) :
    ∀ {l j : ℕ}, l ≤ j → max j (xs.foldr max l) = xs.foldr max j := by
  induction xs with
  | nil => intro l j h; exact Nat.max_eq_left h
  | cons x r ih =>
    intro l j h
    simp only [List.foldr_cons]
    rw [← ih h]
    omega

theorem emitNodes_idx_mem (positions : List Q3) (J : List ℕ) (sp2 : ℚ)
    (floor : Option ℕ) :
    ∀ (idxs : List ℕ) (lp : Q3), ∀ nd ∈ emitNodes positions J sp2 floor idxs lp,
      nd.idx ∈ idxs := by
  intro idxs
  induction idxs with
  | nil => intro lp nd hnd; simp [emitNodes] at hnd
  | cons i rest ih =>
    intro lp nd hnd
    unfold emitNodes at hnd
    by_cases hJ : i ∈ J
    · rw [if_pos hJ] at hnd
      rcases List.mem_cons.mp hnd with rfl | h2
      · exact List.mem_cons_self _ _
      · exact List.mem_cons_of_mem _ (ih _ nd h2)
    · rw [if_neg hJ] at hnd
      by_cases hsp : sp2 ≤ sqDist (positions.getD i d0) lp
      · rw [if_pos hsp] at hnd
        rcases List.mem_cons.mp hnd with rfl | h2
        · exact List.mem_cons_self _ _
        · exact List.mem_cons_of_mem _ (ih _ nd h2)
      · rw [if_neg hsp] at hnd
        exact List.mem_cons_of_mem _ (ih _ nd hnd)

theorem emitNodes_junction_mem (positions : List Q3) (J : List ℕ) (sp2 : ℚ)
    (floor : Option ℕ) :
    ∀ (idxs : List ℕ) (lp : Q3), ∀ j ∈ idxs, j ∈ J →
      (⟨j, positions.getD j d0, NodeType.JUNCTION, floor⟩ : PathNode) ∈
        emitNodes positions J sp2 floor idxs lp := by
  intro idxs
  induction idxs with
  | nil => intro lp j hj _; simp at hj
  | cons i rest ih =>
    intro lp j hj hJ
    unfold emitNodes
    rcases List.mem_cons.mp hj with rfl | h2
    · rw [if_pos hJ]
      exact List.mem_cons_self _ _
    · by_cases hJi : i ∈ J
      · rw [if_pos hJi]
        exact List.mem_cons_of_mem _ (ih _ j h2 hJ)
      · rw [if_neg hJi]
        by_cases hsp : sp2 ≤ sqDist (positions.getD i d0) lp
        · rw [if_pos hsp]
          exact List.mem_cons_of_mem _ (ih _ j h2 hJ)
        · rw [if_neg hsp]
          exact ih _ j h2 hJ

theorem lastIdxBefore_of_lower (e : List PathNode) (b i : ℕ)
    (h : ∀ nd ∈ e, i ≤ nd.idx) : lastIdxBefore e b i = b := by
  unfold lastIdxBefore
  have hnil : (e.map (fun nd => nd.idx)).filter (fun k => decide (k < i)) = [] := by
    rw [List.filter_eq_nil_iff]
    intro k hk
    rcases List.mem_map.mp hk with ⟨nd, hnd, rfl⟩
    simpa using Nat.not_lt.mpr (h nd hnd)
  rw [hnil]
  rfl

theorem lastIdxBefore_cons_lt (nd0 : PathNode) (e : List PathNode) (b i : ℕ)
    (hb : b ≤ nd0.idx) (hlt : nd0.idx < i) :
    lastIdxBefore (nd0 :: e) b i = lastIdxBefore e nd0.idx i := by
  unfold lastIdxBefore
  simp only [List.map_cons]
  rw [List.filter_cons_of_pos (by simpa using hlt)]
  simp only [List.foldr_cons]
  exact foldr_max_base _ hb

theorem exists_idx_cons (nd0 : PathNode) (e : List PathNode) (i : ℕ)
    (hne : nd0.idx ≠ i) :
    (∃ nd ∈ nd0 :: e, nd.idx = i) ↔ ∃ nd ∈ e, nd.idx = i := by
  constructor
  · rintro ⟨nd, hnd, hidx⟩
    rcases List.mem_cons.mp hnd with rfl | h2
    · exact absurd hidx hne
    · exact ⟨nd, h2, hidx⟩
  · rintro ⟨nd, hnd, hidx⟩
    exact ⟨nd, List.mem_cons_of_mem _ hnd, hidx⟩

theorem emitNodes_waypoint_iff (positions : List Q3) (J : List ℕ) (sp2 : ℚ)
    (floor : Option ℕ) :
    ∀ (m s l i : ℕ), l < s → s ≤ i → i < s + m → i ∉ J →
      ((∃ nd ∈ emitNodes positions J sp2 floor (List.range' s m) (positions.getD l d0),
          nd.idx = i) ↔
        sp2 ≤ sqDist (positions.getD i d0)
          (positions.getD
            (lastIdxBefore
              (emitNodes positions J sp2 floor (List.range' s m) (positions.getD l d0))
              l i) d0)) := by
  intro m
  induction m with
  | zero =>
    intro s l i _ h1 h2 _
    omega
  | succ m ih =>
    intro s l i hls hsi him hiJ
    rw [List.range'_succ s m 1]
    have hmemE : ∀ (b : ℕ),
        ∀ nd ∈ emitNodes positions J sp2 floor (List.range' (s + 1) m)
          (positions.getD b d0), s + 1 ≤ nd.idx := by
      intro b nd hnd
      exact (List.mem_range'_1.mp
        (emitNodes_idx_mem positions J sp2 floor _ _ nd hnd)).1
    unfold emitNodes
    by_cases hJ : s ∈ J
    · rw [if_pos hJ]
      have hne : s ≠ i := fun hh => hiJ (hh ▸ hJ)
      have hsi2 : s + 1 ≤ i := by omega
      rw [exists_idx_cons _ _ i hne,
        lastIdxBefore_cons_lt _ _ l i (Nat.le_of_lt hls) (show s < i by omega)]
      exact ih (s + 1) s i (by omega) hsi2 (by omega) hiJ
    · rw [if_neg hJ]
      by_cases hsp : sp2 ≤ sqDist (positions.getD s d0) (positions.getD l d0)
      · rw [if_pos hsp]
        rcases Nat.eq_or_lt_of_le hsi with rfl | hlt
        · rw [lastIdxBefore_of_lower _ l s (by
            intro nd hnd
            rcases List.mem_cons.mp hnd with rfl | h2
            · exact Nat.le_refl s
            · exact Nat.le_of_lt (hmemE s nd h2))]
          exact iff_of_true ⟨_, List.mem_cons_self _ _, rfl⟩ hsp
        · rw [exists_idx_cons _ _ i (show s ≠ i by omega),
            lastIdxBefore_cons_lt _ _ l i (Nat.le_of_lt hls) (show s < i by omega)]
          exact ih (s + 1) s i (by omega) (by omega) (by omega) hiJ
      · rw [if_neg hsp]
        rcases Nat.eq_or_lt_of_le hsi with rfl | hlt
        · rw [lastIdxBefore_of_lower _ l s (fun nd hnd => Nat.le_of_lt (hmemE l nd hnd))]
          refine iff_of_false ?_ hsp
          rintro ⟨nd, hnd, hidx⟩
          have := hmemE l nd hnd
          omega
        · exact ih (s + 1) l i (by omega) (by omega) (by omega) hiJ

theorem emitNodes_ntype (positions : List Q3) (J : List ℕ) (sp2 : ℚ)
    (floor : Option ℕ) :
    ∀ (idxs : List ℕ) (lp : Q3), ∀ nd ∈ emitNodes positions J sp2 floor idxs lp,
      nd.idx ∉ J → nd.ntype = NodeType.WAYPOINT := by
  intro idxs
  induction idxs with
  | nil => intro lp nd hnd; simp [emitNodes] at hnd
  | cons i rest ih =>
    intro lp nd hnd hniJ
    unfold emitNodes at hnd
    by_cases hJ : i ∈ J
    · rw [if_pos hJ] at hnd
      rcases List.mem_cons.mp hnd with rfl | h2
      · exact absurd hJ hniJ
      · exact ih _ nd h2 hniJ
    · rw [if_neg hJ] at hnd
      by_cases hsp : sp2 ≤ sqDist (positions.getD i d0) lp
      · rw [if_pos hsp] at hnd
        rcases List.mem_cons.mp hnd with rfl | h2
        · rfl
        · exact ih _ nd h2 hniJ
      · rw [if_neg hsp] at hnd
        exact ih _ nd hnd hniJ

theorem lastIdxBefore_wrap (e : List PathNode) (a b : PathNode) (i : ℕ)
    (ha : a.idx = 0) (hb : i ≤ b.idx) (hi : 0 < i) :
    lastIdxBefore (a :: (e ++ [b])) 0 i = lastIdxBefore e 0 i := by
  unfold lastIdxBefore
  have h1 : a.idx < i := by omega
  have h2 : ¬ b.idx < i := by omega
  rw [List.map_cons, List.map_append, List.map_cons, List.map_nil,
    List.filter_cons_of_pos (by simpa using h1), List.filter_append,
    List.filter_cons_of_neg (by simpa using h2), List.filter_nil,
    List.append_nil, List.foldr_cons, ha]
  exact foldr_max_base _ (Nat.le_refl 0)

/-- C7: on every polyline with at least two points, the node extractor emits
index 0 and the final index as ENDPOINT nodes (first and last in the output),
emits a JUNCTION node at every junction index unconditionally, and emits any
other interior index as a WAYPOINT exactly when its distance from the last
emitted node (squared, against the squared spacing `sp2`) is at least the node
spacing. -/
theorem extract_path_nodes_spec (positions : List Q3) (J : List ℕ) (sp2 : ℚ)
    (floor : Option ℕ) (hN : 2 ≤ positions.length)
    (hJ : ∀ j ∈ J, 1 ≤ j ∧ j + 1 < positions.length) :
    (extract_path_nodes positions J sp2 floor).head? =
        some ⟨0, positions.getD 0 d0, NodeType.ENDPOINT, floor⟩ ∧
      (extract_path_nodes positions J sp2 floor).getLast? =
        some ⟨positions.length - 1, positions.getD (positions.length - 1) d0,
          NodeType.ENDPOINT, floor⟩ ∧
      (∀ j ∈ J,
        (⟨j, positions.getD j d0, NodeType.JUNCTION, floor⟩ : PathNode) ∈
          extract_path_nodes positions J sp2 floor) ∧
      (∀ i, 1 ≤ i → i + 1 < positions.length → i ∉ J →
        ((∃ nd ∈ extract_path_nodes positions J sp2 floor,
            nd.idx = i ∧ nd.ntype = NodeType.WAYPOINT) ↔
          sp2 ≤ sqDist (positions.getD i d0)
            (positions.getD
              (lastIdxBefore (extract_path_nodes positions J sp2 floor) 0 i)
              d0))) := by
  have hne : extract_path_nodes positions J sp2 floor =
      (⟨0, positions.getD 0 d0, NodeType.ENDPOINT, floor⟩ : PathNode) ::
        (emitNodes positions J sp2 floor (List.range' 1 (positions.length - 2))
            (positions.getD 0 d0) ++
          [⟨positions.length - 1, positions.getD (positions.length - 1) d0,
            NodeType.ENDPOINT, floor⟩]) := by
    unfold extract_path_nodes
    rw [if_neg (by omega)]
  refine ⟨?_, ?_, ?_, ?_⟩
  · rw [hne]; rfl
  · rw [hne, ← List.cons_append, List.getLast?_concat]
  · intro j hj
    rw [hne]
    exact List.mem_cons_of_mem _ (List.mem_append_left _
      (emitNodes_junction_mem positions J sp2 floor _ _ j
        (List.mem_range'_1.mpr ⟨(hJ j hj).1, by
          have := (hJ j hj).2
          omega⟩) hj))
  · intro i h1 h2 hiJ
    have hiff := emitNodes_waypoint_iff positions J sp2 floor
      (positions.length - 2) 1 0 i (by omega) h1 (by omega) hiJ
    rw [hne, lastIdxBefore_wrap _ _ _ i rfl
      (show i ≤ positions.length - 1 by omega) (by omega)]
    constructor
    · rintro ⟨nd, hnd, hidx, _⟩
      apply hiff.mp
      rcases List.mem_cons.mp hnd with rfl | hnd2
      · exact absurd hidx (show (0 : ℕ) ≠ i by omega)
      rcases List.mem_append.mp hnd2 with hE | hlast
      · exact ⟨nd, hE, hidx⟩
      · rw [List.mem_singleton] at hlast
        subst hlast
        exact absurd hidx (show positions.length - 1 ≠ i by omega)
    · intro hsp
      obtain ⟨nd, hndE, hidx⟩ := hiff.mpr hsp
      exact ⟨nd, List.mem_cons_of_mem _ (List.mem_append_left _ hndE), hidx,
        emitNodes_ntype positions J sp2 floor _ _ nd hndE
          (fun hmem => hiJ (hidx ▸ hmem))⟩

/-- A concrete polyline for exercising the node extractor: four points with a
junction declared at interior index 2. -/
def c7P : List Q3 := [(0, 0, 0), (1, 0, 0), (1, 1, 0), (2, 2, 0)]

/-- The junction-index list used with `c7P`. -/
def c7J : List ℕ := [2]

unseal Rat.add Rat.mul Rat.sub Rat.inv Nat.gcd in
/-- Witness for C7: the hypotheses hold on the concrete four-point polyline
and the junction at index 2 is emitted. -/
theorem extract_path_nodes_spec_witness :
    (2 ≤ c7P.length ∧ ∀ j ∈ c7J, 1 ≤ j ∧ j + 1 < c7P.length) ∧
      (⟨2, c7P.getD 2 d0, NodeType.JUNCTION, some 1⟩ : PathNode) ∈
        extract_path_nodes c7P c7J 1 (some 1) :=
  ⟨⟨by decide, by decide⟩,
    (extract_path_nodes_spec c7P c7J 1 (some 1) (by decide) (by decide)).2.2.1
      2 (by decide)⟩

theorem path_distance_ge_aux (positions : List Q3) (s : ℕ) :
    ∀ n, dist3 (positions.getD s d0) (positions.getD (s + n) d0) ≤
      path_distance positions s (s + n) := by
  intro n
  induction n with
  | zero =>
    have h0 : path_distance positions s (s + 0) = 0 := by
      unfold path_distance
      simp
    rw [h0, Nat.add_zero, dist3_self]
  | succ n ih =>
    have hsplit : path_distance positions s (s + (n + 1)) =
        path_distance positions s (s + n) +
          dist3 (positions.getD (s + n) d0) (positions.getD (s + n + 1) d0) := by
      unfold path_distance
      rw [show s + (n + 1) - s = n + 1 by omega, show s + n - s = n by omega,
        List.range_succ, List.map_append, List.sum_append]
      simp
    rw [hsplit]
    calc dist3 (positions.getD s d0) (positions.getD (s + (n + 1)) d0)
        ≤ dist3 (positions.getD s d0) (positions.getD (s + n) d0) +
          dist3 (positions.getD (s + n) d0) (positions.getD (s + (n + 1)) d0) :=
        dist3_triangle _ _ _
      _ ≤ path_distance positions s (s + n) +
          dist3 (positions.getD (s + n) d0) (positions.getD (s + n + 1) d0) :=
        add_le_add_right ih _

theorem path_distance_ge (positions : List Q3) (s e : ℕ) (h : s ≤ e) :
    dist3 (positions.getD s d0) (positions.getD e d0) ≤
      path_distance positions s e := by
  obtain ⟨n, rfl⟩ := Nat.exists_eq_add_of_le h
  exact path_distance_ge_aux positions s n

theorem sorted_zip_tail {α : Type} {r : α → α → Prop} :
    ∀ (l : List α), List.Pairwise r l → ∀ p ∈ l.zip l.tail, r p.1 p.2 := by
  intro l
  induction l with
  | nil => intro _ p hp; simp at hp
  | cons a t ih =>
    intro hp p hmem
    cases t with
    | nil => simp at hmem
    | cons b t2 =>
      simp only [List.tail_cons, List.zip_cons_cons] at hmem
      rcases List.mem_cons.mp hmem with rfl | h2
      · exact List.rel_of_pairwise_cons hp (List.mem_cons_self b t2)
      · exact ih hp.of_cons p h2

/-- C8: every edge emitted by the edge extractor is HORIZONTAL and its
distance — the path length along the polyline between the two node indices —
is at least the Euclidean distance between the two node positions, provided
each node carries the position of its polyline index (as the pipeline
guarantees). -/
theorem extract_path_edges_distance_ge (nodes : List PathNode)
    (positions : List Q3)
    (hpos : ∀ nd ∈ nodes, nd.pos = positions.getD nd.idx d0) :
    ∀ e ∈ extract_path_edges nodes positions,
      e.kind = EdgeKind.HORIZONTAL ∧
        dist3 e.fromN.pos e.toN.pos ≤ e.distance := by
  intro e he
  unfold extract_path_edges at he
  by_cases hlen : nodes.length < 2
  · rw [if_pos hlen] at he
    simp at he
  · rw [if_neg hlen] at he
    obtain ⟨nn, hnn, hsome⟩ := List.mem_filterMap.mp he
    obtain ⟨n1, n2⟩ := nn
    by_cases hd : path_distance positions n1.idx n2.idx ≤ 3
    · rw [if_pos hd] at hsome
      cases hsome
      refine ⟨rfl, ?_⟩
      have hle : n1.idx ≤ n2.idx :=
        sorted_zip_tail _ (List.sorted_insertionSort nodeLE nodes) (n1, n2) hnn
      have hm1 : n1 ∈ nodes :=
        (List.perm_insertionSort nodeLE nodes).mem_iff.mp (List.mem_zip hnn).1
      have hm2 : n2 ∈ nodes :=
        (List.perm_insertionSort nodeLE nodes).mem_iff.mp
          (List.mem_of_mem_tail (List.mem_zip hnn).2)
      show dist3 n1.pos n2.pos ≤ path_distance positions n1.idx n2.idx
      rw [hpos n1 hm1, hpos n2 hm2]
      exact path_distance_ge positions n1.idx n2.idx hle
    · rw [if_neg hd] at hsome
      exact absurd hsome (by simp)

unseal Rat.add Rat.mul Rat.sub Rat.inv Nat.gcd in
/-- Witness for C8: two endpoint nodes over a three-point polyline carry their
polyline positions, so every emitted edge is HORIZONTAL and at least as long
as the straight line between its endpoints. -/
theorem extract_path_edges_distance_ge_witness :
    (∀ nd ∈ ([⟨0, (0, 0, 0), NodeType.ENDPOINT, none⟩,
        ⟨2, (2, 0, 0), NodeType.ENDPOINT, none⟩] : List PathNode),
      nd.pos = ([(0, 0, 0), (1, 0, 0), (2, 0, 0)] : List Q3).getD nd.idx d0) ∧
      ∀ e ∈ extract_path_edges
          [⟨0, (0, 0, 0), NodeType.ENDPOINT, none⟩,
            ⟨2, (2, 0, 0), NodeType.ENDPOINT, none⟩]
          [(0, 0, 0), (1, 0, 0), (2, 0, 0)],
        e.kind = EdgeKind.HORIZONTAL ∧
          dist3 e.fromN.pos e.toN.pos ≤ e.distance :=
  ⟨by decide,
    extract_path_edges_distance_ge
      [⟨0, (0, 0, 0), NodeType.ENDPOINT, none⟩,
        ⟨2, (2, 0, 0), NodeType.ENDPOINT, none⟩]
      [(0, 0, 0), (1, 0, 0), (2, 0, 0)] (by decide)⟩

/-- The per-floor polyline length of `_build_processing_result`: the loop
`for i in range(len(positions) - 1)` accumulates
`np.linalg.norm(positions[i+1] - positions[i])`. -/
noncomputable def polyline_length (positions : List Q3) : ℝ :=
  ((List.range (positions.length - 1)).map (fun (i : ℕ) =>
    dist3 (positions.getD i d0) (positions.getD (i + 1) d0))).sum

/-- The `total_distance` field of the result document built by
`_build_processing_result`: the sum of all floor polyline lengths (vertical
passages contribute nothing to it). -/
noncomputable def total_distance_result (floors : List (ℕ × List Q3)) : ℝ :=
  (floors.map (fun f => polyline_length f.2)).sum

/-- The quantity the spec names: the sum of the distances of the HORIZONTAL
edges of an edge list. -/
noncomputable def horizontal_edge_sum (edges : List PathEdge) : ℝ :=
  ((edges.filter (fun e => e.kind == EdgeKind.HORIZONTAL)).map
    (fun e => e.distance)).sum

/-- The node list `build_path_graph` extracts for one floor
(`(floor_level, positions)`). -/
def floor_nodes (f : ℕ × List Q3) : List PathNode :=
  extract_path_nodes f.2 ((detect_junctions f.2).map (fun j => j.idx)) 1
    (some f.1)

theorem path_distance_self (positions : List Q3) (s : ℕ) :
    path_distance positions s s = 0 := by
  unfold path_distance
  simp

theorem path_distance_add (positions : List Q3) (a b c : ℕ) (hab : a ≤ b)
    (hbc : b ≤ c) :
    path_distance positions a b + path_distance positions b c =
      path_distance positions a c := by
  unfold path_distance
  rw [show c - a = (b - a) + (c - b) by omega, List.range_add, List.map_append,
    List.sum_append]
  congr 1
  rw [List.map_map]
  refine congrArg List.sum (List.map_congr_left ?_)
  intro k _
  show dist3 (positions.getD (b + k) d0) (positions.getD (b + k + 1) d0) =
    dist3 (positions.getD (a + (b - a + k)) d0)
      (positions.getD (a + (b - a + k) + 1) d0)
  rw [show a + (b - a + k) = b + k by omega]

/-- `polyline_length` is the path distance from the first to the last index. -/
theorem polyline_eq_path_distance (positions : List Q3) :
    polyline_length positions =
      path_distance positions 0 (positions.length - 1) := by
  unfold polyline_length path_distance
  rw [Nat.sub_zero]
  refine congrArg List.sum (List.map_congr_left ?_)
  intro k _
  rw [Nat.zero_add]

theorem emitNodes_map_idx_sublist (positions : List Q3) (J : List ℕ) (sp2 : ℚ)
    (floor : Option ℕ) :
    ∀ (idxs : List ℕ) (lp : Q3),
      List.Sublist ((emitNodes positions J sp2 floor idxs lp).map
        (fun nd => nd.idx)) idxs := by
  intro idxs
  induction idxs with
  | nil => intro lp; simp [emitNodes]
  | cons i rest ih =>
    intro lp
    unfold emitNodes
    by_cases hJ : i ∈ J
    · rw [if_pos hJ]
      simp only [List.map_cons]
      exact List.Sublist.cons₂ i (ih _)
    · rw [if_neg hJ]
      by_cases hsp : sp2 ≤ sqDist (positions.getD i d0) lp
      · rw [if_pos hsp]
        simp only [List.map_cons]
        exact List.Sublist.cons₂ i (ih _)
      · rw [if_neg hsp]
        exact List.Sublist.cons i (ih _)

theorem extract_path_nodes_sorted (positions : List Q3) (J : List ℕ)
    (sp2 : ℚ) (floor : Option ℕ) :
    List.Sorted nodeLE (extract_path_nodes positions J sp2 floor) := by
  unfold extract_path_nodes
  by_cases hlen : positions.length < 2
  · rw [if_pos hlen]
    simp
  · rw [if_neg hlen]
    have hE : List.Pairwise (fun a b : PathNode => a.idx < b.idx)
        (emitNodes positions J sp2 floor
          (List.range' 1 (positions.length - 2)) (positions.getD 0 d0)) :=
      List.pairwise_map.mp
        (List.Pairwise.sublist
          (emitNodes_map_idx_sublist positions J sp2 floor _ _)
          (List.pairwise_lt_range' 1 (positions.length - 2)))
    refine List.pairwise_cons.mpr ⟨fun x _ => Nat.zero_le _, ?_⟩
    refine List.pairwise_append.mpr ⟨?_, ?_, ?_⟩
    · exact hE.imp (fun h => Nat.le_of_lt h)
    · simp
    · intro x hx y hy
      rw [List.mem_singleton] at hy
      subst hy
      have := List.mem_range'_1.mp
        (emitNodes_idx_mem positions J sp2 floor _ _ x hx)
      show x.idx ≤ positions.length - 1
      omega

theorem chain_le_getLast :
    ∀ (l : List PathNode) (b : PathNode),
      List.Chain' (fun x y : PathNode => x.idx ≤ y.idx) (b :: l) →
      b.idx ≤ ((b :: l).getLast?.getD b).idx := by
  intro l
  induction l with
  | nil =>
    intro b _
    rw [List.getLast?_singleton]
    exact Nat.le_refl _
  | cons c l2 ih =>
    intro b hch
    rw [List.getLast?_cons_cons]
    obtain ⟨z, hz⟩ := Option.isSome_iff_exists.mp
      (List.getLast?_isSome.mpr (List.cons_ne_nil c l2))
    rw [hz]
    have h1 : b.idx ≤ c.idx := (List.chain'_cons.mp hch).1
    have h2 := ih c (List.chain'_cons.mp hch).2
    rw [hz] at h2
    exact Nat.le_trans h1 h2

theorem zip_tail_sum_path (positions : List Q3) :
    ∀ (l : List PathNode) (a : PathNode),
      List.Chain' (fun x y : PathNode => x.idx ≤ y.idx) (a :: l) →
      (((a :: l).zip (a :: l).tail).map
          (fun nn : PathNode × PathNode =>
            path_distance positions nn.1.idx nn.2.idx)).sum =
        path_distance positions a.idx (((a :: l).getLast?.getD a).idx) := by
  intro l
  induction l with
  | nil =>
    intro a _
    simp [path_distance_self]
  | cons b l2 ih =>
    intro a hch
    rw [List.getLast?_cons_cons]
    obtain ⟨z, hz⟩ := Option.isSome_iff_exists.mp
      (List.getLast?_isSome.mpr (List.cons_ne_nil b l2))
    rw [hz]
    have h1 : a.idx ≤ b.idx := (List.chain'_cons.mp hch).1
    have h2 := (List.chain'_cons.mp hch).2
    have hsum := ih b h2
    rw [hz] at hsum
    simp only [List.tail_cons, List.zip_cons_cons, List.map_cons,
      List.sum_cons] at hsum ⊢
    rw [hsum]
    have hbz : b.idx ≤ z.idx := by
      have := chain_le_getLast l2 b h2
      rw [hz] at this
      exact this
    exact path_distance_add positions a.idx b.idx z.idx h1 hbz

theorem extract_path_edges_all_kept (nodes : List PathNode)
    (positions : List Q3) (h2 : ¬ nodes.length < 2)
    (hsort : List.Sorted nodeLE nodes)
    (hkept : ∀ p ∈ nodes.zip nodes.tail,
      path_distance positions p.1.idx p.2.idx ≤ 3) :
    extract_path_edges nodes positions =
      (nodes.zip nodes.tail).map (fun nn : PathNode × PathNode =>
        (⟨nn.1, nn.2, path_distance positions nn.1.idx nn.2.idx,
          EdgeKind.HORIZONTAL, true⟩ : PathEdge)) := by
  unfold extract_path_edges
  rw [if_neg h2]
  show ((List.insertionSort nodeLE nodes).zip
      (List.insertionSort nodeLE nodes).tail).filterMap
      (fun nn : PathNode × PathNode =>
        if path_distance positions nn.1.idx nn.2.idx ≤ 3 then
          some (⟨nn.1, nn.2, path_distance positions nn.1.idx nn.2.idx,
            EdgeKind.HORIZONTAL, true⟩ : PathEdge)
        else none) =
    (nodes.zip nodes.tail).map (fun nn : PathNode × PathNode =>
      (⟨nn.1, nn.2, path_distance positions nn.1.idx nn.2.idx,
        EdgeKind.HORIZONTAL, true⟩ : PathEdge))
  rw [hsort.insertionSort_eq]
  revert hkept
  generalize nodes.zip nodes.tail = L
  induction L with
  | nil => intro _; rfl
  | cons x t ih =>
    intro hkept
    refine Eq.trans
      (List.filterMap_cons_some (if_pos (hkept x (List.mem_cons_self x t)))) ?_
    rw [List.map_cons, ih (fun y hy => hkept y (List.mem_cons_of_mem x hy))]

theorem floor_horizontal_sum (positions : List Q3) (floor : ℕ)
    (hkept : ∀ p ∈ (floor_nodes (floor, positions)).zip
        (floor_nodes (floor, positions)).tail,
      path_distance positions p.1.idx p.2.idx ≤ 3) :
    horizontal_edge_sum (build_path_graph positions floor).2 =
      polyline_length positions := by
  by_cases hlen : positions.length < 2
  · have hnil : floor_nodes (floor, positions) = [] := by
      unfold floor_nodes extract_path_nodes
      rw [if_pos hlen]
    have hedges : (build_path_graph positions floor).2 = [] := by
      show extract_path_edges (floor_nodes (floor, positions)) positions = []
      rw [hnil]
      unfold extract_path_edges
      rw [if_pos (by simp)]
    rw [hedges]
    have hpoly : polyline_length positions = 0 := by
      unfold polyline_length
      rw [show positions.length - 1 = 0 by omega]
      simp
    rw [hpoly]
    simp [horizontal_edge_sum]
  · have hsort : List.Sorted nodeLE (floor_nodes (floor, positions)) := by
      unfold floor_nodes
      exact extract_path_nodes_sorted positions _ 1 (some floor)
    have h2 : ¬ (floor_nodes (floor, positions)).length < 2 := by
      unfold floor_nodes extract_path_nodes
      rw [if_neg hlen]
      simp only [List.length_cons, List.length_append, List.length_singleton]
      omega
    have hedges := extract_path_edges_all_kept (floor_nodes (floor, positions))
      positions h2 hsort hkept
    show horizontal_edge_sum
      (extract_path_edges (floor_nodes (floor, positions)) positions) = _
    rw [hedges]
    unfold horizontal_edge_sum
    rw [List.filter_eq_self.mpr (by
      intro e he
      obtain ⟨nn, _, rfl⟩ := List.mem_map.mp he
      rfl), List.map_map]
    show (((floor_nodes (floor, positions)).zip
        (floor_nodes (floor, positions)).tail).map
        (fun nn : PathNode × PathNode =>
          path_distance positions nn.1.idx nn.2.idx)).sum =
      polyline_length positions
    have hne : floor_nodes (floor, positions) =
        (⟨0, positions.getD 0 d0, NodeType.ENDPOINT, some floor⟩ : PathNode) ::
          (emitNodes positions
              ((detect_junctions positions).map (fun j => j.idx)) 1
              (some floor) (List.range' 1 (positions.length - 2))
              (positions.getD 0 d0) ++
            [⟨positions.length - 1,
              positions.getD (positions.length - 1) d0,
              NodeType.ENDPOINT, some floor⟩]) := by
      unfold floor_nodes extract_path_nodes
      rw [if_neg hlen]
    have hchain : List.Chain' (fun x y : PathNode => x.idx ≤ y.idx)
        (floor_nodes (floor, positions)) := hsort.chain'
    rw [hne] at hchain ⊢
    rw [zip_tail_sum_path positions _ _ hchain, ← List.cons_append,
      List.getLast?_concat]
    show path_distance positions 0 (positions.length - 1) = _
    exact (polyline_eq_path_distance positions).symm

theorem vertical_sum_zero (allN : List PathNode)
    (passages : List PassageDict) :
    horizontal_edge_sum (passages.filterMap (vertical_edge_of allN)) = 0 := by
  unfold horizontal_edge_sum
  rw [List.filter_eq_nil_iff.mpr (by
    intro e he
    obtain ⟨pd, _, hpd⟩ := List.mem_filterMap.mp he
    unfold vertical_edge_of at hpd
    cases h1 : find_nearest_node_to_position allN pd.entryPoint
        (some pd.fromFloor) with
    | none => rw [h1] at hpd; simp at hpd
    | some en =>
      cases h2 : find_nearest_node_to_position allN pd.exitPoint
          (some pd.toFloor) with
      | none => rw [h1, h2] at hpd; simp at hpd
      | some ex =>
        rw [h1, h2] at hpd
        obtain rfl := Option.some.inj hpd
        cases hpt : pd.ptype <;> simp [vertical_kind, hpt])]
  simp

theorem horizontal_edge_sum_append (l1 l2 : List PathEdge) :
    horizontal_edge_sum (l1 ++ l2) =
      horizontal_edge_sum l1 + horizontal_edge_sum l2 := by
  unfold horizontal_edge_sum
  rw [List.filter_append, List.map_append, List.sum_append]

/-- C2, amended: when every consecutive pair of extracted nodes of every
floor lies within the edge-connection radius (3 m of path length), the sum
of the HORIZONTAL edge distances of the merged graph equals the
`total_distance` field of the result document; without that proviso the two
differ (see the counterexample).  All passages are allowed, since passages
contribute only vertical edges. -/
theorem merged_total_distance (floors : List (ℕ × List Q3))
    (passages : List PassageDict)
    (hkept : ∀ f ∈ floors, ∀ p ∈ (floor_nodes f).zip (floor_nodes f).tail,
      path_distance f.2 p.1.idx p.2.idx ≤ 3) :
    horizontal_edge_sum
        (merge_floor_graphs
          (floors.map (fun f => (f.1, build_path_graph f.2 f.1)))
          passages).2 =
      total_distance_result floors := by
  rw [show (merge_floor_graphs
        (floors.map (fun f => (f.1, build_path_graph f.2 f.1))) passages).2 =
      ((floors.map (fun f => (f.1, build_path_graph f.2 f.1))).map
          (fun g => g.2.2)).flatten ++
        passages.filterMap (vertical_edge_of
          (((floors.map (fun f => (f.1, build_path_graph f.2 f.1))).map
              (fun g => g.2.1)).flatten)) from rfl]
  rw [horizontal_edge_sum_append, vertical_sum_zero, add_zero, List.map_map]
  show horizontal_edge_sum
      ((floors.map (fun f => (build_path_graph f.2 f.1).2)).flatten) = _
  induction floors with
  | nil => simp [horizontal_edge_sum, total_distance_result]
  | cons f fs2 ih =>
    rw [List.map_cons, List.flatten_cons, horizontal_edge_sum_append,
      ih (fun g hg => hkept g (List.mem_cons_of_mem f hg)),
      floor_horizontal_sum f.2 f.1 (hkept f (List.mem_cons_self f fs2))]
    unfold total_distance_result
    rw [List.map_cons, List.sum_cons]

unseal Rat.add Rat.mul Rat.sub Rat.inv Nat.gcd in
/-- C2 counterexample: a single floor whose smoothed polyline is two points
4 m apart.  The result document's `total_distance` is 4, but the single
candidate edge has path distance 4 > EDGE_CONNECTION_RADIUS = 3 and is
dropped, so the merged graph has no HORIZONTAL edge at all and the spec's
sum is 0. -/
theorem total_distance_ne_horizontal_sum :
    total_distance_result [(1, [(0, 0, 0), (4, 0, 0)])] = 4 ∧
      horizontal_edge_sum
          (merge_floor_graphs
            (([(1, [(0, 0, 0), (4, 0, 0)])] : List (ℕ × List Q3)).map
              (fun f => (f.1, build_path_graph f.2 f.1)))
            []).2 = 0 ∧
      (4 : ℝ) ≠ 0 := by
  have hd : dist3 ((0 : ℚ), (0 : ℚ), (0 : ℚ)) ((4 : ℚ), (0 : ℚ), (0 : ℚ)) =
      ((4 : ℚ) : ℝ) :=
    dist3_eval (by norm_num [sqDist]) (by norm_num)
  refine ⟨?_, ?_, by norm_num⟩
  · unfold total_distance_result polyline_length
    have hr1 : List.range 1 = [0] := rfl
    simp [hr1]
    exact_mod_cast hd
  · have hpd : path_distance [(0, 0, 0), (4, 0, 0)] 0 1 = ((4 : ℚ) : ℝ) := by
      unfold path_distance
      have hr1 : List.range 1 = [0] := rfl
      simp [hr1]
      exact_mod_cast hd
    have hedge : (build_path_graph [(0, 0, 0), (4, 0, 0)] 1).2 = [] := by
      show extract_path_edges (floor_nodes (1, [(0, 0, 0), (4, 0, 0)]))
        [(0, 0, 0), (4, 0, 0)] = []
      rw [List.eq_nil_iff_forall_not_mem]
      intro e he
      unfold extract_path_edges at he
      rw [if_neg (by decide)] at he
      obtain ⟨nn, hnn, hsome⟩ := List.mem_filterMap.mp he
      have hsort : List.insertionSort nodeLE
          (floor_nodes (1, [(0, 0, 0), (4, 0, 0)])) =
          [⟨0, (0, 0, 0), NodeType.ENDPOINT, some 1⟩,
            ⟨1, (4, 0, 0), NodeType.ENDPOINT, some 1⟩] := by decide
      rw [hsort] at hnn
      simp only [List.tail_cons, List.zip_cons_cons, List.zip_nil_right,
        List.mem_singleton] at hnn
      subst hnn
      rw [if_neg (by rw [hpd]; norm_num)] at hsome
      simp at hsome
    show horizontal_edge_sum
      (((build_path_graph [(0, 0, 0), (4, 0, 0)] 1).2 ++ []) ++ []) = 0
    rw [hedge]
    simp [horizontal_edge_sum]

unseal Rat.add Rat.mul Rat.sub Rat.inv Nat.gcd in
/-- Witness for C2's amended statement: one floor of three collinear points
1 m apart keeps every consecutive node pair within the connection radius, and
the merged graph's HORIZONTAL edge sum equals the document's
`total_distance`. -/
theorem merged_total_distance_witness :
    (∀ f ∈ ([(1, [(0, 0, 0), (1, 0, 0), (2, 0, 0)])] : List (ℕ × List Q3)),
        ∀ p ∈ (floor_nodes f).zip (floor_nodes f).tail,
          path_distance f.2 p.1.idx p.2.idx ≤ 3) ∧
      horizontal_edge_sum
          (merge_floor_graphs
            (([(1, [(0, 0, 0), (1, 0, 0), (2, 0, 0)])] :
                List (ℕ × List Q3)).map
              (fun f => (f.1, build_path_graph f.2 f.1)))
            []).2 =
        total_distance_result [(1, [(0, 0, 0), (1, 0, 0), (2, 0, 0)])] := by
  have hone : dist3 ((0 : ℚ), (0 : ℚ), (0 : ℚ)) ((1 : ℚ), (0 : ℚ), (0 : ℚ)) =
      ((1 : ℚ) : ℝ) :=
    dist3_eval (by norm_num [sqDist]) (by norm_num)
  have htwo : dist3 ((1 : ℚ), (0 : ℚ), (0 : ℚ)) ((2 : ℚ), (0 : ℚ), (0 : ℚ)) =
      ((1 : ℚ) : ℝ) :=
    dist3_eval (by norm_num [sqDist]) (by norm_num)
  have hk : ∀ f ∈ ([(1, [(0, 0, 0), (1, 0, 0), (2, 0, 0)])] :
      List (ℕ × List Q3)),
      ∀ p ∈ (floor_nodes f).zip (floor_nodes f).tail,
        path_distance f.2 p.1.idx p.2.idx ≤ 3 := by
    intro f hf p hp
    rw [List.mem_singleton] at hf
    subst hf
    have hzip : (floor_nodes
          ((1 : ℕ), ([(0, 0, 0), (1, 0, 0), (2, 0, 0)] : List Q3))).zip
        (floor_nodes
          ((1 : ℕ), ([(0, 0, 0), (1, 0, 0), (2, 0, 0)] : List Q3))).tail =
        [(⟨0, (0, 0, 0), NodeType.ENDPOINT, some 1⟩,
            ⟨1, (1, 0, 0), NodeType.WAYPOINT, some 1⟩),
          (⟨1, (1, 0, 0), NodeType.WAYPOINT, some 1⟩,
            ⟨2, (2, 0, 0), NodeType.ENDPOINT, some 1⟩)] := by decide
    rw [hzip] at hp
    have hr1 : List.range 1 = [0] := rfl
    rcases List.mem_cons.mp hp with rfl | hp2
    · show path_distance [(0, 0, 0), (1, 0, 0), (2, 0, 0)] 0 1 ≤ 3
      unfold path_distance
      simp [hr1]
      exact le_trans (le_of_eq hone) (by norm_num)
    · rw [List.mem_singleton] at hp2
      subst hp2
      show path_distance [(0, 0, 0), (1, 0, 0), (2, 0, 0)] 1 2 ≤ 3
      unfold path_distance
      simp [hr1]
      exact le_trans (le_of_eq htwo) (by norm_num)
  exact ⟨hk, merged_total_distance _ [] hk⟩
